import Mathlib

/-!
# Verification of `pulldown-cmark-wikilink` (src/lib.rs)

A shallow embedding of the wikilink overlay engine:

* `lex` — the lexer (`token.rs` is not in the sources; modelled from the spec).
* `parse_wikilink_first_field`, `parse_wikilink_alias`, `parse_wikilink`,
  `parse_text`, `runP`, `wikiEvents` — `WikiParser` from `src/lib.rs`.
* `textJoiner` — `TextJoiner::next`.
* `overlayNext`, `overlayRun`, `parserOffsetIter` — `ParserOffsetIter::next`.

Strings are `List Char`; byte ranges become character-index ranges `Rng`
(half-open `[start, stop)`); the treatment is index-for-index faithful to
the byte-offset code since every offset the code manipulates is a slice
boundary.  Rust's `Range` field `end` is named `stop` (`end` is a Lean
keyword).  Iterators are materialized into lists: each Rust iterator here
buffers a finite amount of output per pull, so the full output list is the
faithful denotation of draining the iterator.  Places where the Rust would
panic (`expect`, `unreachable!`, `unwrap` on `None`) are modelled by
`Option`'s `none`.
-/

namespace Wikilink

/-- Half-open index range `[start, stop)` (Rust `Range<usize>`; `end` is a
Lean keyword, so the field is `stop`). -/
structure Rng where
  start : Nat
  stop : Nat
deriving DecidableEq, Repr

/-- `&source[r]` for a `Rng`: the slice of the source between `r.start` and
`r.stop`. -/
def sliceR (src : List Char) (r : Rng) : List Char :=
  (src.drop r.start).take (r.stop - r.start)

/-- `&source[a..b]`. -/
def slice (src : List Char) (a b : Nat) : List Char :=
  (src.drop a).take (b - a)

/-- Tokens of the wikilink lexer (`Token` in the missing `token.rs`; the
constructor names `LLBra`, `RRBra`, `Pipe`, `NewLine` are those `lib.rs`
imports, plus a run of other characters). -/
inductive Tok where
  | LLBra
  | RRBra
  | Pipe
  | NewLine
  | Other (s : List Char)
deriving DecidableEq, Repr

/-- A token with the source range it occupies. -/
abbrev TokR := Tok × Rng

/-- `pulldown_cmark::LinkType`: this crate only ever constructs `Inline`. -/
inductive LinkType where
  | Inline
  | OtherType (n : Nat)
deriving DecidableEq, Repr

/-- `pulldown_cmark::MetadataBlockKind`. -/
inductive MetaKind where
  | YamlStyle
  | PlusesStyle
deriving DecidableEq, Repr

/-- The `pulldown_cmark::Tag` constructors this crate inspects or builds;
all others are collapsed into the opaque `OtherTag`. -/
inductive Tag where
  | Link (link_type : LinkType) (dest_url : List Char) (title : List Char) (id : List Char)
  | MetadataBlock (kind : MetaKind)
  | CodeBlock (kind : Nat)
  | Paragraph
  | OtherTag (n : Nat)
deriving DecidableEq, Repr

/-- The `pulldown_cmark::TagEnd` constructors this crate inspects or builds. -/
inductive TagEnd where
  | Link
  | MetadataBlock (kind : MetaKind)
  | CodeBlock
  | Paragraph
  | OtherTagEnd (n : Nat)
deriving DecidableEq, Repr

/-- The `pulldown_cmark::Event` shape this crate inspects or builds; event
kinds it only passes through are collapsed into the opaque `OtherEv`. -/
inductive Event where
  | Text (s : List Char)
  | Start (t : Tag)
  | End (t : TagEnd)
  | OtherEv (n : Nat)
deriving DecidableEq, Repr

/-- An event with the source range it covers. -/
abbrev EvR := Event × Rng

/-- Helper of the lexer: a character that is ordinary content joins the
`Other` run that immediately follows it, otherwise starts a fresh run
(this realizes the spec's "every maximal run of characters not matching
the above is one `Other` token"). -/
def pushOther (c : Char) (i : Nat) : List TokR → List TokR
  | (Tok.Other s, r) :: ts => (Tok.Other (c :: s), ⟨i, r.stop⟩) :: ts
  | ts => (Tok.Other [c], ⟨i, i + 1⟩) :: ts

/-- Modelled from the spec: the lexer of the missing `token.rs`
(`Lexer::new_at(slice, base)` drained to a list).  Given a slice and the
offset at which it begins, produce `(Token, range)` pairs in full-document
coordinates: `[[`, `]]` are two-character tokens whenever they occur, `|`
and a line break are single-character tokens, every maximal remaining run
is one `Other` token; a single undoubled `[` or `]` is ordinary content. -/
def lex : List Char → Nat → List TokR
  | [], _ => []
  | '[' :: '[' :: rest, i => (Tok.LLBra, ⟨i, i + 2⟩) :: lex rest (i + 2)
  | ']' :: ']' :: rest, i => (Tok.RRBra, ⟨i, i + 2⟩) :: lex rest (i + 2)
  | '|' :: rest, i => (Tok.Pipe, ⟨i, i + 1⟩) :: lex rest (i + 1)
  | '\n' :: rest, i => (Tok.NewLine, ⟨i, i + 1⟩) :: lex rest (i + 1)
  | c :: rest, i => pushOther c i (lex rest (i + 1))

/-- `ParseError` of `lib.rs`. -/
inductive ParseError where
  | Empty
  | ReParse (r : Rng)
deriving DecidableEq, Repr

/-- `error.extend_before(start..end)` returns a new error that spans from
`start` to the end of the error (either `end`, either the original error
end) — `ParseError::extend_before`. -/
def ParseError.extend_before : ParseError → Rng → ParseError
  | .Empty, r => .ReParse r
  | .ReParse r2, r => .ReParse ⟨r.start, r2.stop⟩

/-- The scanning loop of `parse_wikilink_first_field`: consume tokens until
a `Pipe` or `RRBra` is peeked (not consumed); running out of tokens is a
`ReParse` failure over the scanned range. -/
def firstFieldLoop (start curr : Nat) : List TokR → (Except ParseError Rng) × List TokR
  | [] => (.error (.ReParse ⟨start, curr⟩), [])
  | (Tok.Pipe, r) :: ts => (.ok ⟨start, curr⟩, (Tok.Pipe, r) :: ts)
  | (Tok.RRBra, r) :: ts => (.ok ⟨start, curr⟩, (Tok.RRBra, r) :: ts)
  | (t, r) :: ts => firstFieldLoop start r.stop ts

/-- `WikiParser::parse_wikilink_first_field`: in `[[url|link]]`, returns
`url` and does not consume the `|`.  The lexer state is passed and
returned explicitly. -/
def parse_wikilink_first_field : List TokR → (Except ParseError Rng) × List TokR
  | [] => (.error .Empty, [])
  | (t, x) :: ts => firstFieldLoop x.start x.start ((t, x) :: ts)

/-- The scanning loop of `parse_wikilink_alias`: like `firstFieldLoop` but
stopping only at `RRBra` (a `Pipe` inside the alias is ordinary content). -/
def aliasLoop (start curr : Nat) : List TokR → (Except ParseError Rng) × List TokR
  | [] => (.error (.ReParse ⟨start, curr⟩), [])
  | (Tok.RRBra, r) :: ts => (.ok ⟨start, curr⟩, (Tok.RRBra, r) :: ts)
  | (t, r) :: ts => aliasLoop start r.stop ts

/-- `WikiParser::parse_wikilink_alias`: in `link]]`, returns `link` and
does not consume the `]]`. -/
def parse_wikilink_alias : List TokR → (Except ParseError Rng) × List TokR
  | [] => (.error .Empty, [])
  | (t, x) :: ts => aliasLoop x.start x.start ((t, x) :: ts)

/-- `WikiParser::parse_wikilink`: parse an entire wikilink, one of
`[[a shortcut url]]` or `[[a url|with some displayed content]]`, the
leading `[[` being the head of the token list.  `none` models a panic
(`unwrap` on an empty lexer) or the `unreachable!()` arm of the final
match. -/
def parse_wikilink (src : List Char) :
    List TokR → Option ((Except ParseError (List EvR)) × List TokR)
  | [] => none
  | (_, tag_pos) :: ts =>
    match parse_wikilink_first_field ts with
    | (.error e, rest) => some (.error (e.extend_before tag_pos), rest)
    | (.ok url_pos, rest) =>
      let opening_tag : Event :=
        .Start (.Link .Inline (sliceR src url_pos) "wiki".toList [])
      let closing_tag : Event := .End .Link
      match rest with
      | (Tok.RRBra, x) :: rest2 =>
        some (.ok [(opening_tag, ⟨tag_pos.start, x.stop⟩),
                   (.Text (sliceR src url_pos), url_pos),
                   (closing_tag, ⟨tag_pos.start, x.stop⟩)], rest2)
      | (Tok.Pipe, _) :: rest2 =>
        match parse_wikilink_alias rest2 with
        | (.error e, rest3) => some (.error (e.extend_before tag_pos), rest3)
        | (.ok alias_pos, rest3) =>
          match rest3 with
          | [] => none
          | (_, x) :: rest4 =>
            some (.ok [(opening_tag, ⟨tag_pos.start, x.stop⟩),
                       (.Text (sliceR src alias_pos), alias_pos),
                       (closing_tag, ⟨tag_pos.start, x.stop⟩)], rest4)
      | _ => none

/-- The scanning loop of `WikiParser::parse_text`: consume tokens until the
first `LLBra` is peeked or the span ends. -/
def parseTextLoop (start curr : Nat) : List TokR → Rng × List TokR
  | [] => (⟨start, curr⟩, [])
  | (Tok.LLBra, r) :: ts => (⟨start, curr⟩, (Tok.LLBra, r) :: ts)
  | (t, r) :: ts => parseTextLoop start r.stop ts

/-- The newline-suppression loop at the head of `WikiParser::next`. -/
def skipNewlines : List TokR → List TokR
  | (Tok.NewLine, _) :: ts => skipNewlines ts
  | ts => ts

theorem skipNewlines_length : ∀ ts : List TokR, (skipNewlines ts).length ≤ ts.length := by
  intro ts
  induction ts with
  | nil => simp [skipNewlines]
  | cons h t ih =>
    match h with
    | (Tok.NewLine, r) => simpa [skipNewlines] using Nat.le_succ_of_le ih
    | (Tok.LLBra, r) | (Tok.RRBra, r) | (Tok.Pipe, r) | (Tok.Other s, r) =>
      simp [skipNewlines]

theorem firstFieldLoop_length (start curr : Nat) :
    ∀ ts : List TokR, (firstFieldLoop start curr ts).2.length ≤ ts.length := by
  intro ts
  induction ts generalizing curr with
  | nil => simp [firstFieldLoop]
  | cons h t ih =>
    match h with
    | (Tok.Pipe, r) | (Tok.RRBra, r) => simp [firstFieldLoop]
    | (Tok.LLBra, r) | (Tok.NewLine, r) | (Tok.Other s, r) =>
      simpa [firstFieldLoop] using Nat.le_succ_of_le (ih r.stop)

theorem aliasLoop_length (start curr : Nat) :
    ∀ ts : List TokR, (aliasLoop start curr ts).2.length ≤ ts.length := by
  intro ts
  induction ts generalizing curr with
  | nil => simp [aliasLoop]
  | cons h t ih =>
    match h with
    | (Tok.RRBra, r) => simp [aliasLoop]
    | (Tok.LLBra, r) | (Tok.NewLine, r) | (Tok.Pipe, r) | (Tok.Other s, r) =>
      simpa [aliasLoop] using Nat.le_succ_of_le (ih r.stop)

theorem parseTextLoop_length (start curr : Nat) :
    ∀ ts : List TokR, (parseTextLoop start curr ts).2.length ≤ ts.length := by
  intro ts
  induction ts generalizing curr with
  | nil => simp [parseTextLoop]
  | cons h t ih =>
    match h with
    | (Tok.LLBra, r) => simp [parseTextLoop]
    | (Tok.RRBra, r) | (Tok.NewLine, r) | (Tok.Pipe, r) | (Tok.Other s, r) =>
      simpa [parseTextLoop] using Nat.le_succ_of_le (ih r.stop)

theorem parse_wikilink_first_field_length :
    ∀ ts : List TokR, (parse_wikilink_first_field ts).2.length ≤ ts.length := by
  intro ts
  match ts with
  | [] => simp [parse_wikilink_first_field]
  | (t, x) :: ts => simpa [parse_wikilink_first_field] using firstFieldLoop_length x.start x.start _

theorem parse_wikilink_alias_length :
    ∀ ts : List TokR, (parse_wikilink_alias ts).2.length ≤ ts.length := by
  intro ts
  match ts with
  | [] => simp [parse_wikilink_alias]
  | (t, x) :: ts => simpa [parse_wikilink_alias] using aliasLoop_length x.start x.start _

theorem parse_wikilink_length (src : List Char) :
    ∀ ts res rest, parse_wikilink src ts = some (res, rest) → rest.length < ts.length := by
  intro ts res rest h
  match ts with
  | [] => simp [parse_wikilink] at h
  | (t0, tag_pos) :: ts' =>
    have hff := parse_wikilink_first_field_length ts'
    simp only [parse_wikilink] at h
    match hf : parse_wikilink_first_field ts' with
    | (.error e, r1) =>
      rw [hf] at h hff
      simp at h hff
      simp [← h.2]
      omega
    | (.ok url_pos, r1) =>
      rw [hf] at h hff
      simp at hff
      match r1 with
      | [] => simp at h
      | (Tok.RRBra, x) :: rest2 =>
        simp at h
        simp [← h.2]
        simp at hff
        omega
      | (Tok.Pipe, x) :: rest2 =>
        have hal := parse_wikilink_alias_length rest2
        simp only at h
        match ha : parse_wikilink_alias rest2 with
        | (.error e, r3) =>
          rw [ha] at h hal
          simp at h hal
          simp [← h.2]
          simp at hff
          omega
        | (.ok alias_pos, r3) =>
          rw [ha] at h hal
          simp at hal
          match r3 with
          | [] => simp at h
          | (t4, x4) :: rest4 =>
            simp at h hal
            simp [← h.2]
            simp at hff
            omega
      | (Tok.LLBra, x) :: rest2 | (Tok.NewLine, x) :: rest2 | (Tok.Other s, x) :: rest2 =>
        simp at h

theorem parseTextLoop_length_lt (start curr : Nat) (t : Tok) (r : Rng) (ts : List TokR)
    (ht : t ≠ Tok.LLBra) :
    (parseTextLoop start curr ((t, r) :: ts)).2.length < ((t, r) :: ts).length := by
  match t with
  | Tok.LLBra => exact absurd rfl ht
  | Tok.RRBra | Tok.NewLine | Tok.Pipe | Tok.Other s =>
    simpa [parseTextLoop] using Nat.lt_succ_of_le (parseTextLoop_length start r.stop ts)

/-- `<Iterator for WikiParser>::next`, iterated until exhaustion: the full
event list produced by one `WikiParser` over a token stream.  The internal
triple buffer shows up as list concatenation; `none` models a reachable
panic or `unreachable!()` arm. -/
def runP (src : List Char) (ts : List TokR) : Option (List EvR) :=
  match h1 : skipNewlines ts with
  | [] => some []
  | (t, r) :: ts' =>
    if ht : t = Tok.LLBra then
      match h2 : parse_wikilink src ((t, r) :: ts') with
      | none => none
      | some (.ok evs, rest) => (runP src rest).map (fun es => evs ++ es)
      | some (.error (.ReParse rr), rest) =>
        (runP src rest).map (fun es => (Event.Text (sliceR src rr), rr) :: es)
      | some (.error .Empty, _) => none
    else
      let pr := parseTextLoop r.start r.start ((t, r) :: ts')
      (runP src pr.2).map (fun es => (Event.Text (sliceR src pr.1), pr.1) :: es)
termination_by ts.length
decreasing_by
  · have hlen : ((t, r) :: ts').length ≤ ts.length := by
      rw [← h1]; exact skipNewlines_length ts
    have := parse_wikilink_length src ((t, r) :: ts') _ _ h2
    omega
  · have hlen : ((t, r) :: ts').length ≤ ts.length := by
      rw [← h1]; exact skipNewlines_length ts
    have := parse_wikilink_length src ((t, r) :: ts') _ _ h2
    omega
  · have hlen : ((t, r) :: ts').length ≤ ts.length := by
      rw [← h1]; exact skipNewlines_length ts
    have := parseTextLoop_length_lt r.start r.start t r ts' ht
    omega

/-- `WikiParser::new(source, range)` drained to a list (`.collect()`):
lex `&source[range]` at base offset `range.start` and run the parser.
The `Option` layer is dropped (`runP` is proved total elsewhere). -/
def wikiEvents (src : List Char) (a b : Nat) : List EvR :=
  (runP src (lex (slice src a b) a)).getD []

/-- The merge loop of `TextJoiner::next`: consume `Text` events while they
last, returning the end offset of the last one consumed. -/
def joinRun (e : Nat) : List EvR → Nat × List EvR
  | (Event.Text _, r) :: rest => joinRun r.stop rest
  | rest => (e, rest)

theorem joinRun_length (e : Nat) : ∀ evs : List EvR, (joinRun e evs).2.length ≤ evs.length := by
  intro evs
  induction evs generalizing e with
  | nil => simp [joinRun]
  | cons h t ih =>
    match h with
    | (Event.Text x, r) => simpa [joinRun] using Nat.le_succ_of_le (ih r.stop)
    | (Event.Start tg, r) | (Event.End tg, r) | (Event.OtherEv n, r) => simp [joinRun]

theorem joinRun_length_lt (x : List Char) (r : Rng) (rest : List EvR) :
    (joinRun r.stop ((Event.Text x, r) :: rest)).2.length < ((Event.Text x, r) :: rest).length := by
  have h := joinRun_length r.stop rest
  simp only [joinRun]
  simpa using Nat.lt_succ_of_le h

/-- `<Iterator for TextJoiner>::next`, iterated until exhaustion, over an
arbitrary upstream event stream: an empty `Text` head is skipped, a
non-empty `Text` head starts a merge of all following `Text` events into
one event re-sliced from the source, anything else passes through. -/
def textJoiner (src : List Char) : List EvR → List EvR
  | [] => []
  | (Event.Text x, r) :: rest =>
    if x = [] then textJoiner src rest
    else
      let pr := joinRun r.stop ((Event.Text x, r) :: rest)
      (Event.Text (slice src r.start pr.1), ⟨r.start, pr.1⟩) :: textJoiner src pr.2
  | er :: rest => er :: textJoiner src rest
termination_by evs => evs.length
decreasing_by
  · simp
  · exact joinRun_length_lt x r rest
  · simp

/-- One step of `<Iterator for ParserOffsetIter>::next` past the buffer,
with `wikilinks = true`: the event pulled from the joined stream is either
transformed into a burst of events (a `Text` span in plain state is routed
through a fresh `WikiParser`) or passed through, updating the two state
booleans `inside_metadata` / `inside_codeblock`.  `none` models the
`expect("an empty text should not be possible here")` panic. -/
def overlayNext (src : List Char) (m c : Bool) : EvR → Option (List EvR) × Bool × Bool
  | (Event.End (TagEnd.MetadataBlock k), r) =>
    if m then (some [(Event.End (TagEnd.MetadataBlock k), r)], false, c)
    else (some [(Event.End (TagEnd.MetadataBlock k), r)], m, c)
  | (Event.End TagEnd.CodeBlock, r) =>
    if c then (some [(Event.End TagEnd.CodeBlock, r)], m, false)
    else (some [(Event.End TagEnd.CodeBlock, r)], m, c)
  | (Event.Text x, r) =>
    if m || c then (some [(Event.Text x, r)], m, c)
    else
      match wikiEvents src r.start r.stop with
      | [] => (none, m, c)
      | ev :: evs => (some (ev :: evs), m, c)
  | (Event.Start (Tag.MetadataBlock k), r) => (some [(Event.Start (Tag.MetadataBlock k), r)], true, c)
  | (Event.Start (Tag.CodeBlock k), r) => (some [(Event.Start (Tag.CodeBlock k), r)], m, true)
  | (e, r) => (some [(e, r)], m, c)

/-- `<Iterator for ParserOffsetIter>::next` with `wikilinks = true`,
iterated until exhaustion, starting from state `(m, c)`. -/
def overlayRun (src : List Char) (m c : Bool) : List EvR → Option (List EvR)
  | [] => some []
  | er :: rest =>
    match overlayNext src m c er with
    | (none, _, _) => none
    | (some out, m', c') => (overlayRun src m' c' rest).map (fun es => out ++ es)

/-- `ParserOffsetIter::new_ext(source, options, wikilinks)` drained to a
list, taking the coalesced base stream (`TextJoiner` output) as input:
with `wikilinks = false` every pull returns `self.events.next()`
unchanged; otherwise the overlay state machine runs from the
`Plain` state (`inside_metadata = inside_codeblock = false`). -/
def parserOffsetIter (src : List Char) (wikilinks : Bool) (evs : List EvR) :
    Option (List EvR) :=
  if !wikilinks then some evs else overlayRun src false false evs

/-! ## Specification predicates -/

/-- Modelled from the spec: the `TextCoalescer` contract §4.3, first half —
"zero-length `Text` events are dropped entirely". -/
def dropEmptyText : List EvR → List EvR :=
  List.filter fun er =>
    match er with
    | (Event.Text [], _) => false
    | _ => true

/-- Is the event a `Text` event? -/
def isText (er : EvR) : Bool :=
  match er with
  | (Event.Text _, _) => true
  | _ => false

theorem dropWhile_length_le (p : EvR → Bool) :
    ∀ l : List EvR, (l.dropWhile p).length ≤ l.length := by
  intro l
  induction l with
  | nil => simp
  | cons h t ih =>
    by_cases hp : p h
    · simpa [List.dropWhile, hp] using Nat.le_succ_of_le ih
    · simp [List.dropWhile, hp]

/-- Modelled from the spec: the `TextCoalescer` contract §4.3, second half —
"consecutive `Text` events are merged into a single `Text` event spanning
from the first's start to the last's end, re-sliced from the source";
non-text events pass through one at a time. -/
def groupTexts (src : List Char) : List EvR → List EvR
  | [] => []
  | er :: rest =>
    if isText er then
      let run := er :: rest.takeWhile isText
      let e := (run.getLast (List.cons_ne_nil er _)).2.stop
      (Event.Text (slice src er.2.start e), ⟨er.2.start, e⟩) ::
        groupTexts src (rest.dropWhile isText)
    else er :: groupTexts src rest
termination_by evs => evs.length
decreasing_by
  · simp only [List.length_cons]
    exact Nat.lt_succ_of_le (dropWhile_length_le isText _)
  · simp

/-- Modelled from the spec: the full `TextCoalescer` contract of §4.3,
stated from the spec's words (drop the zero-length `Text` events, then
merge every maximal run of consecutive `Text` events into one re-sliced
event). -/
def coalesceSpec (src : List Char) (evs : List EvR) : List EvR :=
  groupTexts src (dropEmptyText evs)

/-- The token list tiles `[p, q)`: each token starts where the previous one
stopped, is non-empty, and the last one stops at `q`. -/
def tokTilesB : Nat → Nat → List TokR → Bool
  | p, q, [] => p == q
  | p, q, (_, r) :: ts => (r.start == p) && (p < r.stop) && tokTilesB r.stop q ts

/-- Every position in `[p, p + n)` of the source holds a line break. -/
def nlRunB (src : List Char) : Nat → Nat → Bool
  | _, 0 => true
  | p, n + 1 => (src.get? p == some '\n') && nlRunB src (p + 1) n

/-- The ranges tile `[p, q)` exactly: consecutive, adjacent, no gaps. -/
def tilesB : Nat → Nat → List Rng → Bool
  | p, q, [] => p == q
  | p, q, r :: rs => (r.start == p) && tilesB r.stop q rs

/-- The ranges cover `[p, q)` in order without overlap, every uncovered
position holding a line break (the `WikiParser` silently skips `NewLine`
tokens between segments). -/
def tilesNlB (src : List Char) : Nat → Nat → List Rng → Bool
  | p, q, [] => (p ≤ q) && nlRunB src p (q - p)
  | p, q, r :: rs =>
    (p ≤ r.start) && nlRunB src p (r.start - p) && (r.start < r.stop) && tilesNlB src r.stop q rs

/-- The source slices an event list accounts for, in emission order: a
`Text` event stands for its own range, a successfully parsed wikilink
(`Start(Link)`, inner `Text`, `End(Link)`) stands once for its outer range
(which covers the consumed `[[`, `|`, `]]` delimiters together with the
target), every other event contributes nothing. -/
def cover : List EvR → List Rng
  | (Event.Start (Tag.Link _ _ _ _), r) :: _ :: _ :: rest => r :: cover rest
  | (Event.Text _, r) :: rest => r :: cover rest
  | _ :: rest => cover rest
  | [] => []

/-- Start positions of the event ranges are monotonically non-decreasing. -/
def startsMono : List EvR → Bool
  | [] => true
  | [_] => true
  | e1 :: e2 :: rest => (e1.2.start ≤ e2.2.start) && startsMono (e2 :: rest)

/-- Every event range is a valid sub-range of the source. -/
def validRangesB (src : List Char) (evs : List EvR) : Bool :=
  evs.all fun er => decide (er.2.start ≤ er.2.stop) && decide (er.2.stop ≤ src.length)

/-- Well-formedness of one upstream event, from the external-interface
contract of spec §6: the range is a valid sub-range of the source and a
`Text` payload is the slice of the source its range covers. -/
def wfEventB (src : List Char) (er : EvR) : Bool :=
  decide (er.2.start ≤ er.2.stop) && decide (er.2.stop ≤ src.length) &&
  (match er.1 with
   | Event.Text x => x == sliceR src er.2
   | _ => true)

/-- Adjacent `Text` events of the upstream stream are contiguous (the
splitting of one logical text run into several adjacent events, spec §6). -/
def textContigB : List EvR → Bool
  | e1 :: e2 :: rest =>
    (!(isText e1 && isText e2) || (e1.2.stop == e2.2.start)) && textContigB (e2 :: rest)
  | _ => true

/-- Well-formedness of an upstream (base-parser) event stream: every event
is well-formed and adjacent `Text` events are contiguous. -/
def wfEventsB (src : List Char) (evs : List EvR) : Bool :=
  evs.all (wfEventB src) && textContigB evs

/-- No two consecutive events of the list are both `Text` events. -/
def noAdjTexts : List EvR → Bool
  | e1 :: e2 :: rest => !(isText e1 && isText e2) && noAdjTexts (e2 :: rest)
  | _ => true

/-! ## Groundwork: `nlRunB`, `tokTilesB`, lexer lemmas -/

theorem nlRunB_iff (src : List Char) :
    ∀ n p, nlRunB src p n = true ↔ ∀ j, p ≤ j → j < p + n → src.get? j = some '\n' := by
  intro n
  induction n with
  | zero => intro p; simp [nlRunB]; omega
  | succ k ih =>
    intro p
    simp only [nlRunB, Bool.and_eq_true, beq_iff_eq, ih (p + 1)]
    constructor
    · rintro ⟨h0, h1⟩ j hj1 hj2
      rcases Nat.eq_or_lt_of_le hj1 with h | h
      · simpa [← h] using h0
      · exact h1 j h (by omega)
    · intro h
      exact ⟨h p le_rfl (by omega), fun j hj1 hj2 => h j (by omega) (by omega)⟩

theorem nlRunB_zero (src : List Char) (p : Nat) : nlRunB src p 0 = true := rfl

theorem nlRunB_concat (src : List Char) (p m n : Nat) (h1 : p ≤ m) (h2 : m ≤ n)
    (ha : nlRunB src p (m - p) = true) (hb : nlRunB src m (n - m) = true) :
    nlRunB src p (n - p) = true := by
  rw [nlRunB_iff] at ha hb ⊢
  intro j hj1 hj2
  by_cases hc : j < m
  · exact ha j hj1 (by omega)
  · exact hb j (by omega) (by omega)

theorem tokTilesB_le : ∀ (ts : List TokR) (p q : Nat), tokTilesB p q ts = true → p ≤ q := by
  intro ts
  induction ts with
  | nil => intro p q h; simp [tokTilesB] at h; omega
  | cons hd tl ih =>
    intro p q h
    match hd with
    | (t, r) =>
      simp only [tokTilesB, Bool.and_eq_true, beq_iff_eq, decide_eq_true_eq] at h
      have := ih r.stop q h.2
      omega

theorem tokTilesB_bounds : ∀ (ts : List TokR) (p q : Nat), tokTilesB p q ts = true →
    ∀ tr ∈ ts, p ≤ tr.2.start ∧ tr.2.start < tr.2.stop ∧ tr.2.stop ≤ q := by
  intro ts
  induction ts with
  | nil => intro p q _ tr htr; simp at htr
  | cons hd tl ih =>
    intro p q h tr htr
    match hd with
    | (t, r) =>
      simp only [tokTilesB, Bool.and_eq_true, beq_iff_eq, decide_eq_true_eq] at h
      obtain ⟨⟨hs, hlt⟩, htail⟩ := h
      rcases List.mem_cons.mp htr with h1 | h1
      · subst h1
        refine ⟨?_, ?_, tokTilesB_le tl r.stop q htail⟩
        · show p ≤ r.start
          omega
        · show r.start < r.stop
          omega
      · have := ih r.stop q htail tr h1
        omega

theorem pushOther_tiles (c : Char) (i q : Nat) (ts : List TokR)
    (h : tokTilesB (i + 1) q ts = true) : tokTilesB i q (pushOther c i ts) = true := by
  match ts with
  | [] =>
    simp only [tokTilesB, beq_iff_eq] at h
    simp only [pushOther, tokTilesB, Bool.and_eq_true, beq_iff_eq, decide_eq_true_eq]
    refine ⟨⟨by trivial, by omega⟩, by simpa [tokTilesB] using h⟩
  | (Tok.Other s, r) :: ts' =>
    simp only [tokTilesB, Bool.and_eq_true, beq_iff_eq, decide_eq_true_eq] at h
    obtain ⟨⟨hs, hlt⟩, htail⟩ := h
    simp only [pushOther, tokTilesB, Bool.and_eq_true, beq_iff_eq, decide_eq_true_eq]
    exact ⟨⟨by trivial, by omega⟩, htail⟩
  | (Tok.LLBra, r) :: ts' | (Tok.RRBra, r) :: ts' | (Tok.Pipe, r) :: ts' | (Tok.NewLine, r) :: ts' =>
    simp only [tokTilesB, Bool.and_eq_true, beq_iff_eq, decide_eq_true_eq] at h
    simp only [pushOther, tokTilesB, Bool.and_eq_true, beq_iff_eq, decide_eq_true_eq]
    exact ⟨⟨by trivial, by omega⟩, h⟩

/-- The lexer tokens tile the lexed slice exactly. -/
theorem lex_tiles : ∀ (s : List Char) (i : Nat), tokTilesB i (i + s.length) (lex s i) = true := by
  intro s i
  induction s, i using lex.induct with
  | case1 i => simp [lex, tokTilesB]
  | case2 rest i ih =>
    have : i + (rest.length + 2) = (i + 2) + rest.length := by omega
    simp only [lex, List.length_cons, tokTilesB, Bool.and_eq_true, beq_iff_eq, decide_eq_true_eq]
    refine ⟨⟨by trivial, by omega⟩, ?_⟩
    rw [show i + (rest.length + 1 + 1) = (i + 2) + rest.length by omega]
    exact ih
  | case3 rest i ih =>
    simp only [lex, List.length_cons, tokTilesB, Bool.and_eq_true, beq_iff_eq, decide_eq_true_eq]
    refine ⟨⟨by trivial, by omega⟩, ?_⟩
    rw [show i + (rest.length + 1 + 1) = (i + 2) + rest.length by omega]
    exact ih
  | case4 rest i ih =>
    simp only [lex, List.length_cons, tokTilesB, Bool.and_eq_true, beq_iff_eq, decide_eq_true_eq]
    refine ⟨⟨by trivial, by omega⟩, ?_⟩
    rw [show i + (rest.length + 1) = (i + 1) + rest.length by omega]
    exact ih
  | case5 rest i ih =>
    simp only [lex, List.length_cons, tokTilesB, Bool.and_eq_true, beq_iff_eq, decide_eq_true_eq]
    refine ⟨⟨by trivial, by omega⟩, ?_⟩
    rw [show i + (rest.length + 1) = (i + 1) + rest.length by omega]
    exact ih
  | case6 c rest i h1 h2 h3 h4 ih =>
    rw [lex.eq_6 i c rest h1 h2 h3 h4]
    simp only [List.length_cons]
    apply pushOther_tiles
    rw [show i + (rest.length + 1) = (i + 1) + rest.length by omega]
    exact ih

theorem pushOther_mem (c : Char) (i : Nat) (ts : List TokR) (tr : TokR)
    (h : tr ∈ pushOther c i ts) : tr ∈ ts ∨ ∃ s' r', tr = (Tok.Other s', r') := by
  match ts with
  | [] =>
    simp [pushOther] at h
    exact Or.inr ⟨[c], ⟨i, i + 1⟩, h⟩
  | (Tok.Other s, r) :: ts' =>
    simp only [pushOther] at h
    rcases List.mem_cons.mp h with h1 | h1
    · exact Or.inr ⟨c :: s, ⟨i, r.stop⟩, h1⟩
    · exact Or.inl (List.mem_cons_of_mem _ h1)
  | (Tok.LLBra, r) :: ts' | (Tok.RRBra, r) :: ts' | (Tok.Pipe, r) :: ts' | (Tok.NewLine, r) :: ts' =>
    simp only [pushOther] at h
    rcases List.mem_cons.mp h with h1 | h1
    · exact Or.inr ⟨[c], ⟨i, i + 1⟩, h1⟩
    · exact Or.inl h1

/-- Every `NewLine` token of the lexer covers exactly one position, which
holds a line break in the lexed slice. -/
theorem lex_newline : ∀ (s : List Char) (i : Nat) (r : Rng), (Tok.NewLine, r) ∈ lex s i →
    ∃ j, r = ⟨j, j + 1⟩ ∧ s.get? (j - i) = some '\n' ∧ i ≤ j := by
  intro s i
  induction s, i using lex.induct with
  | case1 i => intro r h; simp [lex] at h
  | case2 rest i ih =>
    intro r h
    simp only [lex] at h
    rcases List.mem_cons.mp h with h1 | h1
    · simp at h1
    · obtain ⟨j, hj1, hj2, hj3⟩ := ih r h1
      refine ⟨j, hj1, ?_, by omega⟩
      rw [show j - i = (j - (i + 2)) + 2 by omega]
      simpa using hj2
  | case3 rest i ih =>
    intro r h
    simp only [lex] at h
    rcases List.mem_cons.mp h with h1 | h1
    · simp at h1
    · obtain ⟨j, hj1, hj2, hj3⟩ := ih r h1
      refine ⟨j, hj1, ?_, by omega⟩
      rw [show j - i = (j - (i + 2)) + 2 by omega]
      simpa using hj2
  | case4 rest i ih =>
    intro r h
    simp only [lex] at h
    rcases List.mem_cons.mp h with h1 | h1
    · simp at h1
    · obtain ⟨j, hj1, hj2, hj3⟩ := ih r h1
      refine ⟨j, hj1, ?_, by omega⟩
      rw [show j - i = (j - (i + 1)) + 1 by omega]
      simpa using hj2
  | case5 rest i ih =>
    intro r h
    simp only [lex] at h
    rcases List.mem_cons.mp h with h1 | h1
    · have hr : r = ⟨i, i + 1⟩ := by simpa using congrArg Prod.snd h1
      exact ⟨i, hr, by simp, le_rfl⟩
    · obtain ⟨j, hj1, hj2, hj3⟩ := ih r h1
      refine ⟨j, hj1, ?_, by omega⟩
      rw [show j - i = (j - (i + 1)) + 1 by omega]
      simpa using hj2
  | case6 c rest i h1 h2 h3 h4 ih =>
    intro r h
    rw [lex.eq_6 i c rest h1 h2 h3 h4] at h
    rcases pushOther_mem c i _ _ h with h5 | ⟨s', r', h5⟩
    · obtain ⟨j, hj1, hj2, hj3⟩ := ih r h5
      refine ⟨j, hj1, ?_, by omega⟩
      rw [show j - i = (j - (i + 1)) + 1 by omega]
      simpa using hj2
    · simp at h5

/-- Every `Pipe` token of the lexer covers exactly one position, which
holds a pipe character in the lexed slice. -/
theorem lex_pipe : ∀ (s : List Char) (i : Nat) (r : Rng), (Tok.Pipe, r) ∈ lex s i →
    ∃ j, r = ⟨j, j + 1⟩ ∧ s.get? (j - i) = some '|' ∧ i ≤ j := by
  intro s i
  induction s, i using lex.induct with
  | case1 i => intro r h; simp [lex] at h
  | case2 rest i ih =>
    intro r h
    simp only [lex] at h
    rcases List.mem_cons.mp h with h1 | h1
    · simp at h1
    · obtain ⟨j, hj1, hj2, hj3⟩ := ih r h1
      refine ⟨j, hj1, ?_, by omega⟩
      rw [show j - i = (j - (i + 2)) + 2 by omega]
      simpa using hj2
  | case3 rest i ih =>
    intro r h
    simp only [lex] at h
    rcases List.mem_cons.mp h with h1 | h1
    · simp at h1
    · obtain ⟨j, hj1, hj2, hj3⟩ := ih r h1
      refine ⟨j, hj1, ?_, by omega⟩
      rw [show j - i = (j - (i + 2)) + 2 by omega]
      simpa using hj2
  | case4 rest i ih =>
    intro r h
    simp only [lex] at h
    rcases List.mem_cons.mp h with h1 | h1
    · have hr : r = ⟨i, i + 1⟩ := by simpa using congrArg Prod.snd h1
      exact ⟨i, hr, by simp, le_rfl⟩
    · obtain ⟨j, hj1, hj2, hj3⟩ := ih r h1
      refine ⟨j, hj1, ?_, by omega⟩
      rw [show j - i = (j - (i + 1)) + 1 by omega]
      simpa using hj2
  | case5 rest i ih =>
    intro r h
    simp only [lex] at h
    rcases List.mem_cons.mp h with h1 | h1
    · simp at h1
    · obtain ⟨j, hj1, hj2, hj3⟩ := ih r h1
      refine ⟨j, hj1, ?_, by omega⟩
      rw [show j - i = (j - (i + 1)) + 1 by omega]
      simpa using hj2
  | case6 c rest i h1 h2 h3 h4 ih =>
    intro r h
    rw [lex.eq_6 i c rest h1 h2 h3 h4] at h
    rcases pushOther_mem c i _ _ h with h5 | ⟨s', r', h5⟩
    · obtain ⟨j, hj1, hj2, hj3⟩ := ih r h5
      refine ⟨j, hj1, ?_, by omega⟩
      rw [show j - i = (j - (i + 1)) + 1 by omega]
      simpa using hj2
    · simp at h5

/-- If the lexed slice contains a character other than a line break, the
lexer emits a token other than `NewLine`. -/
theorem lex_nonNewline : ∀ (s : List Char) (i : Nat), (∃ c ∈ s, c ≠ '\n') →
    ∃ tr ∈ lex s i, tr.1 ≠ Tok.NewLine := by
  intro s i
  induction s, i using lex.induct with
  | case1 i => rintro ⟨c, hc, _⟩; simp at hc
  | case2 rest i ih =>
    intro _
    exact ⟨(Tok.LLBra, ⟨i, i + 2⟩), by simp [lex], by simp⟩
  | case3 rest i ih =>
    intro _
    exact ⟨(Tok.RRBra, ⟨i, i + 2⟩), by simp [lex], by simp⟩
  | case4 rest i ih =>
    intro _
    exact ⟨(Tok.Pipe, ⟨i, i + 1⟩), by simp [lex], by simp⟩
  | case5 rest i ih =>
    rintro ⟨c, hc, hne⟩
    rcases List.mem_cons.mp hc with h1 | h1
    · exact absurd h1 hne
    · obtain ⟨tr, htr1, htr2⟩ := ih ⟨c, h1, hne⟩
      exact ⟨tr, by simp [lex, htr1], htr2⟩
  | case6 c0 rest i h1 h2 h3 h4 ih =>
    intro _
    rw [lex.eq_6 i c0 rest h1 h2 h3 h4]
    obtain ⟨s', r', ts', hh⟩ : ∃ s' r' ts',
        pushOther c0 i (lex rest (i + 1)) = (Tok.Other s', r') :: ts' := by
      match hl : lex rest (i + 1) with
      | [] => exact ⟨[c0], ⟨i, i + 1⟩, [], rfl⟩
      | (Tok.Other s, r) :: ts' => exact ⟨c0 :: s, ⟨i, r.stop⟩, ts', rfl⟩
      | (Tok.LLBra, r) :: ts' | (Tok.RRBra, r) :: ts' | (Tok.Pipe, r) :: ts'
      | (Tok.NewLine, r) :: ts' => exact ⟨[c0], ⟨i, i + 1⟩, _, rfl⟩
    rw [hh]
    exact ⟨(Tok.Other s', r'), by simp, by simp⟩

/-! ## Parser loop specifications -/

/-- No `Pipe` token of the list stops exactly at the span end `q` (rules
out a structural `|` being the very last token of the span). -/
def noPipeEnd (q : Nat) (ts : List TokR) : Prop :=
  ∀ r : Rng, (Tok.Pipe, r) ∈ ts → r.stop ≠ q

/-- Every `NewLine` token covers only line-break positions of the source. -/
def nlTok (src : List Char) (ts : List TokR) : Prop :=
  ∀ r : Rng, (Tok.NewLine, r) ∈ ts → ∀ j, r.start ≤ j → j < r.stop → src.get? j = some '\n'

theorem firstFieldLoop_spec (start : Nat) :
    ∀ (ts : List TokR) (curr q : Nat), tokTilesB curr q ts = true →
    (∃ t r rest2, firstFieldLoop start curr ts = (.ok ⟨start, r.start⟩, (t, r) :: rest2) ∧
       (t = Tok.Pipe ∨ t = Tok.RRBra) ∧ curr ≤ r.start ∧
       tokTilesB r.start q ((t, r) :: rest2) = true ∧
       (∀ x ∈ (t, r) :: rest2, x ∈ ts)) ∨
    (firstFieldLoop start curr ts = (.error (.ReParse ⟨start, q⟩), []) ∧ curr ≤ q) := by
  intro ts
  induction ts with
  | nil =>
    intro curr q h
    simp only [tokTilesB, beq_iff_eq] at h
    right
    rw [show curr = q from by simpa using h]
    exact ⟨rfl, le_rfl⟩
  | cons hd tl ih =>
    intro curr q h
    match hd with
    | (Tok.Pipe, r) =>
      simp only [tokTilesB, Bool.and_eq_true, beq_iff_eq, decide_eq_true_eq] at h
      obtain ⟨⟨hs, hlt⟩, htail⟩ := h
      left
      refine ⟨Tok.Pipe, r, tl, ?_, Or.inl rfl, by omega, ?_, fun x hx => hx⟩
      · simp [firstFieldLoop, hs]
      · simp only [tokTilesB, Bool.and_eq_true, beq_iff_eq, decide_eq_true_eq]
        exact ⟨⟨by trivial, by omega⟩, by simpa [hs] using htail⟩
    | (Tok.RRBra, r) =>
      simp only [tokTilesB, Bool.and_eq_true, beq_iff_eq, decide_eq_true_eq] at h
      obtain ⟨⟨hs, hlt⟩, htail⟩ := h
      left
      refine ⟨Tok.RRBra, r, tl, ?_, Or.inr rfl, by omega, ?_, fun x hx => hx⟩
      · simp [firstFieldLoop, hs]
      · simp only [tokTilesB, Bool.and_eq_true, beq_iff_eq, decide_eq_true_eq]
        exact ⟨⟨by trivial, by omega⟩, by simpa [hs] using htail⟩
    | (Tok.LLBra, r) | (Tok.NewLine, r) | (Tok.Other s, r) =>
      simp only [tokTilesB, Bool.and_eq_true, beq_iff_eq, decide_eq_true_eq] at h
      obtain ⟨⟨hs, hlt⟩, htail⟩ := h
      rcases ih r.stop q htail with ⟨t', r', rest2, he, ht', hc, htl, hsub⟩ | ⟨he, hc⟩
      · left
        exact ⟨t', r', rest2, he, ht', by omega, htl,
          fun x hx => List.mem_cons_of_mem _ (hsub x hx)⟩
      · right
        exact ⟨he, by omega⟩

theorem aliasLoop_spec (start : Nat) :
    ∀ (ts : List TokR) (curr q : Nat), tokTilesB curr q ts = true →
    (∃ r rest2, aliasLoop start curr ts = (.ok ⟨start, r.start⟩, (Tok.RRBra, r) :: rest2) ∧
       curr ≤ r.start ∧
       tokTilesB r.start q ((Tok.RRBra, r) :: rest2) = true ∧
       (∀ x ∈ (Tok.RRBra, r) :: rest2, x ∈ ts)) ∨
    (aliasLoop start curr ts = (.error (.ReParse ⟨start, q⟩), []) ∧ curr ≤ q) := by
  intro ts
  induction ts with
  | nil =>
    intro curr q h
    simp only [tokTilesB, beq_iff_eq] at h
    right
    rw [show curr = q from by simpa using h]
    exact ⟨rfl, le_rfl⟩
  | cons hd tl ih =>
    intro curr q h
    match hd with
    | (Tok.RRBra, r) =>
      simp only [tokTilesB, Bool.and_eq_true, beq_iff_eq, decide_eq_true_eq] at h
      obtain ⟨⟨hs, hlt⟩, htail⟩ := h
      left
      refine ⟨r, tl, ?_, by omega, ?_, fun x hx => hx⟩
      · simp [aliasLoop, hs]
      · simp only [tokTilesB, Bool.and_eq_true, beq_iff_eq, decide_eq_true_eq]
        exact ⟨⟨by trivial, by omega⟩, by simpa [hs] using htail⟩
    | (Tok.LLBra, r) | (Tok.NewLine, r) | (Tok.Pipe, r) | (Tok.Other s, r) =>
      simp only [tokTilesB, Bool.and_eq_true, beq_iff_eq, decide_eq_true_eq] at h
      obtain ⟨⟨hs, hlt⟩, htail⟩ := h
      rcases ih r.stop q htail with ⟨r', rest2, he, hc, htl, hsub⟩ | ⟨he, hc⟩
      · left
        exact ⟨r', rest2, he, by omega, htl,
          fun x hx => List.mem_cons_of_mem _ (hsub x hx)⟩
      · right
        exact ⟨he, by omega⟩

theorem parseTextLoop_spec (start : Nat) :
    ∀ (ts : List TokR) (curr q : Nat), tokTilesB curr q ts = true →
    (∃ r rest2, parseTextLoop start curr ts = (⟨start, r.start⟩, (Tok.LLBra, r) :: rest2) ∧
       curr ≤ r.start ∧
       tokTilesB r.start q ((Tok.LLBra, r) :: rest2) = true ∧
       (∀ x ∈ (Tok.LLBra, r) :: rest2, x ∈ ts)) ∨
    (parseTextLoop start curr ts = (⟨start, q⟩, []) ∧ curr ≤ q) := by
  intro ts
  induction ts with
  | nil =>
    intro curr q h
    simp only [tokTilesB, beq_iff_eq] at h
    right
    rw [show curr = q from by simpa using h]
    exact ⟨rfl, le_rfl⟩
  | cons hd tl ih =>
    intro curr q h
    match hd with
    | (Tok.LLBra, r) =>
      simp only [tokTilesB, Bool.and_eq_true, beq_iff_eq, decide_eq_true_eq] at h
      obtain ⟨⟨hs, hlt⟩, htail⟩ := h
      left
      refine ⟨r, tl, ?_, by omega, ?_, fun x hx => hx⟩
      · simp [parseTextLoop, hs]
      · simp only [tokTilesB, Bool.and_eq_true, beq_iff_eq, decide_eq_true_eq]
        exact ⟨⟨by trivial, by omega⟩, by simpa [hs] using htail⟩
    | (Tok.RRBra, r) | (Tok.NewLine, r) | (Tok.Pipe, r) | (Tok.Other s, r) =>
      simp only [tokTilesB, Bool.and_eq_true, beq_iff_eq, decide_eq_true_eq] at h
      obtain ⟨⟨hs, hlt⟩, htail⟩ := h
      rcases ih r.stop q htail with ⟨r', rest2, he, hc, htl, hsub⟩ | ⟨he, hc⟩
      · left
        exact ⟨r', rest2, he, by omega, htl,
          fun x hx => List.mem_cons_of_mem _ (hsub x hx)⟩
      · right
        exact ⟨he, by omega⟩

/-! ## `parse_wikilink` specification -/

theorem firstFieldLoop_ok_shape (start : Nat) :
    ∀ (ts : List TokR) (curr : Nat) (u : Rng) (rest : List TokR),
    firstFieldLoop start curr ts = (.ok u, rest) →
    ∃ t r rest2, rest = (t, r) :: rest2 ∧ (t = Tok.Pipe ∨ t = Tok.RRBra) := by
  intro ts
  induction ts with
  | nil => intro curr u rest h; simp [firstFieldLoop] at h
  | cons hd tl ih =>
    intro curr u rest h
    match hd with
    | (Tok.Pipe, r) =>
      simp only [firstFieldLoop, Prod.mk.injEq] at h
      exact ⟨Tok.Pipe, r, tl, h.2.symm, Or.inl rfl⟩
    | (Tok.RRBra, r) =>
      simp only [firstFieldLoop, Prod.mk.injEq] at h
      exact ⟨Tok.RRBra, r, tl, h.2.symm, Or.inr rfl⟩
    | (Tok.LLBra, r) | (Tok.NewLine, r) | (Tok.Other s, r) =>
      exact ih r.stop u rest h

theorem aliasLoop_ok_shape (start : Nat) :
    ∀ (ts : List TokR) (curr : Nat) (u : Rng) (rest : List TokR),
    aliasLoop start curr ts = (.ok u, rest) →
    ∃ r rest2, rest = (Tok.RRBra, r) :: rest2 := by
  intro ts
  induction ts with
  | nil => intro curr u rest h; simp [aliasLoop] at h
  | cons hd tl ih =>
    intro curr u rest h
    match hd with
    | (Tok.RRBra, r) =>
      simp only [aliasLoop, Prod.mk.injEq] at h
      exact ⟨r, tl, h.2.symm⟩
    | (Tok.LLBra, r) | (Tok.NewLine, r) | (Tok.Pipe, r) | (Tok.Other s, r) =>
      exact ih r.stop u rest h

theorem parse_wikilink_first_field_ok_shape (ts : List TokR) (u : Rng) (rest : List TokR)
    (h : parse_wikilink_first_field ts = (.ok u, rest)) :
    ∃ t r rest2, rest = (t, r) :: rest2 ∧ (t = Tok.Pipe ∨ t = Tok.RRBra) := by
  match ts with
  | [] => simp [parse_wikilink_first_field] at h
  | (t1, x1) :: ts1 =>
    exact firstFieldLoop_ok_shape x1.start _ x1.start u rest h

theorem parse_wikilink_alias_ok_shape (ts : List TokR) (u : Rng) (rest : List TokR)
    (h : parse_wikilink_alias ts = (.ok u, rest)) :
    ∃ r rest2, rest = (Tok.RRBra, r) :: rest2 := by
  match ts with
  | [] => simp [parse_wikilink_alias] at h
  | (t1, x1) :: ts1 =>
    exact aliasLoop_ok_shape x1.start _ x1.start u rest h

/-- The `unreachable!()` arm and the `unwrap` of `parse_wikilink` are dead
code: on a non-empty lexer (the `[[` just consumed in `next`), the
function always returns. -/
theorem parse_wikilink_isSome (src : List Char) (t0 : Tok) (tag : Rng) (ts : List TokR) :
    (parse_wikilink src ((t0, tag) :: ts)).isSome = true := by
  simp only [parse_wikilink]
  match hff : parse_wikilink_first_field ts with
  | (.error e, rest) => simp
  | (.ok u, rest) =>
    obtain ⟨t, r, rest2, hr, ht⟩ := parse_wikilink_first_field_ok_shape ts u rest hff
    subst hr
    rcases ht with ht | ht
    · subst ht
      simp only
      match ha : parse_wikilink_alias rest2 with
      | (.error e, rest3) => simp
      | (.ok u2, rest3) =>
        obtain ⟨r3, rest4, hr3⟩ := parse_wikilink_alias_ok_shape rest2 u2 rest3 ha
        subst hr3
        simp
    · subst ht
      simp

/-- `parse_wikilink` never fails with `ParseError::Empty`: every failure
has been extended with `extend_before`, which always yields `ReParse`
(so the `unreachable!()` in the failure arm of `next` is dead code). -/
theorem parse_wikilink_error_ne_Empty (src : List Char) (ts rest : List TokR) :
    parse_wikilink src ts ≠ some (.error .Empty, rest) := by
  intro h
  match ts with
  | [] => simp [parse_wikilink] at h
  | (t0, tag) :: ts' =>
    simp only [parse_wikilink] at h
    match hff : parse_wikilink_first_field ts' with
    | (.error e1, rest1) =>
      rw [hff] at h
      match e1 with
      | .Empty => simp [ParseError.extend_before] at h
      | .ReParse r2 => simp [ParseError.extend_before] at h
    | (.ok u, rest1) =>
      rw [hff] at h
      obtain ⟨t, r, rest2, hr, ht⟩ := parse_wikilink_first_field_ok_shape ts' u rest1 hff
      subst hr
      rcases ht with ht | ht
      · subst ht
        simp only at h
        match ha : parse_wikilink_alias rest2 with
        | (.error e2, rest3) =>
          rw [ha] at h
          match e2 with
          | .Empty => simp [ParseError.extend_before] at h
          | .ReParse r2 => simp [ParseError.extend_before] at h
        | (.ok u2, rest3) =>
          rw [ha] at h
          obtain ⟨r3, rest4, hr3⟩ := parse_wikilink_alias_ok_shape rest2 u2 rest3 ha
          subst hr3
          simp at h
      · subst ht
        simp at h

/-- A successful `parse_wikilink` always buffers exactly the three-event
link triple. -/
theorem parse_wikilink_ok_shape (src : List Char) (ts : List TokR)
    (evs : List EvR) (rest : List TokR)
    (h : parse_wikilink src ts = some (.ok evs, rest)) :
    ∃ du m txt, evs = [(Event.Start (Tag.Link .Inline du "wiki".toList []), m),
                       (Event.Text (sliceR src txt), txt),
                       (Event.End .Link, m)] := by
  match ts with
  | [] => simp [parse_wikilink] at h
  | (t0, tag) :: ts' =>
    simp only [parse_wikilink] at h
    match hff : parse_wikilink_first_field ts' with
    | (.error e1, rest1) =>
      rw [hff] at h
      simp at h
    | (.ok u, rest1) =>
      rw [hff] at h
      obtain ⟨t, r, rest2, hr, ht⟩ := parse_wikilink_first_field_ok_shape ts' u rest1 hff
      subst hr
      rcases ht with ht | ht
      · subst ht
        simp only at h
        match ha : parse_wikilink_alias rest2 with
        | (.error e2, rest3) =>
          rw [ha] at h
          simp at h
        | (.ok u2, rest3) =>
          rw [ha] at h
          obtain ⟨r3, rest4, hr3⟩ := parse_wikilink_alias_ok_shape rest2 u2 rest3 ha
          subst hr3
          simp only [Option.some.injEq, Prod.mk.injEq, Except.ok.injEq] at h
          exact ⟨sliceR src u, ⟨tag.start, r3.stop⟩, u2, h.1.symm⟩
      · subst ht
        simp only [Option.some.injEq, Prod.mk.injEq, Except.ok.injEq] at h
        exact ⟨sliceR src u, ⟨tag.start, r.stop⟩, u, h.1.symm⟩

/-- Full characterization of `parse_wikilink` on a token list tiling
`[p, q)`: either it returns the link triple (outer range from the `[[` to
the closing `]]`, inner `Text` strictly inside) and a remainder tiling the
rest of the span, or it fails with a `ReParse` range starting at the `[[`;
the failure range reaches the span end `q` whenever no structural `|` is
the final token (otherwise the `Empty`-variant extension truncates it at
the end of the `[[` token). -/
theorem parse_wikilink_spec (src : List Char) (t0 : Tok) (tag : Rng) (ts : List TokR)
    (p q : Nat) (h : tokTilesB p q ((t0, tag) :: ts) = true) :
    (∃ du txt m rest,
       parse_wikilink src ((t0, tag) :: ts) =
         some (.ok [(Event.Start (Tag.Link .Inline du "wiki".toList []), ⟨p, m⟩),
                    (Event.Text (sliceR src txt), txt),
                    (Event.End .Link, ⟨p, m⟩)], rest) ∧
       p ≤ txt.start ∧ txt.start ≤ txt.stop ∧ txt.stop ≤ m ∧ p < m ∧
       tokTilesB m q rest = true ∧ (∀ x ∈ rest, x ∈ (t0, tag) :: ts)) ∨
    (∃ e2, parse_wikilink src ((t0, tag) :: ts) = some (.error (.ReParse ⟨p, e2⟩), []) ∧
       p < e2 ∧ e2 ≤ q ∧ (noPipeEnd q ((t0, tag) :: ts) → e2 = q)) := by
  simp only [tokTilesB, Bool.and_eq_true, beq_iff_eq, decide_eq_true_eq] at h
  obtain ⟨⟨htags, htagl⟩, hts⟩ := h
  have hteta : (⟨p, tag.stop⟩ : Rng) = tag := by rw [← htags]
  have hq : tag.stop ≤ q := tokTilesB_le ts tag.stop q hts
  rcases ts with _ | ⟨⟨t1, x1⟩, ts1⟩
  · -- empty lexer after the `[[`: `parse_wikilink_first_field` fails with `Empty`
    simp only [tokTilesB, beq_iff_eq] at hts
    have hqe : tag.stop = q := by simpa using hts
    right
    refine ⟨tag.stop, ?_, by omega, by omega, fun _ => hqe⟩
    simp only [parse_wikilink, parse_wikilink_first_field, ParseError.extend_before, hteta]
  · have hx1 : x1.start = tag.stop := by
      simp only [tokTilesB, Bool.and_eq_true, beq_iff_eq, decide_eq_true_eq] at hts
      exact hts.1.1
    rcases firstFieldLoop_spec x1.start ((t1, x1) :: ts1) x1.start q (by rw [hx1]; exact hts) with
      ⟨tstop, rr, rest2, he, ht, hc, htl, hsub⟩ | ⟨he, hc⟩
    · -- first field scan succeeded, stopped at `tstop` ∈ {Pipe, RRBra}
      have hff1 : parse_wikilink_first_field ((t1, x1) :: ts1) =
          (Except.ok ⟨x1.start, rr.start⟩, (tstop, rr) :: rest2) := he
      have htl2 := htl
      simp only [tokTilesB, Bool.and_eq_true, beq_iff_eq, decide_eq_true_eq] at htl2
      obtain ⟨⟨hrrs, hrrl⟩, htl2⟩ := htl2
      rcases ht with ht | ht
      · -- Pipe: scan the alias
        subst ht
        rcases rest2 with _ | ⟨⟨t2, x2⟩, rest3p⟩
        · -- the `Empty` alias failure: only possible when the `|` ends the span
          simp only [tokTilesB, beq_iff_eq] at htl2
          have hrq : rr.stop = q := by simpa using htl2
          right
          refine ⟨tag.stop, ?_, by omega, by omega, ?_⟩
          · simp only [parse_wikilink, hff1, parse_wikilink_alias,
              ParseError.extend_before, hteta]
          · intro hnp
            exact absurd hrq
              (hnp rr (List.mem_cons_of_mem _ (hsub (Tok.Pipe, rr) (List.mem_cons_self _ _))))
        · have hx2 : x2.start = rr.stop := by
            simp only [tokTilesB, Bool.and_eq_true, beq_iff_eq, decide_eq_true_eq] at htl2
            exact htl2.1.1
          rcases aliasLoop_spec x2.start ((t2, x2) :: rest3p) x2.start q
              (by rw [hx2]; exact htl2) with
            ⟨r3, rest4, he2, hc2, htl3, hsub2⟩ | ⟨he2, hc2⟩
          · -- alias scan succeeded
            left
            have ha1 : parse_wikilink_alias ((t2, x2) :: rest3p) =
                (Except.ok ⟨x2.start, r3.start⟩, (Tok.RRBra, r3) :: rest4) := he2
            have htl4 := htl3
            simp only [tokTilesB, Bool.and_eq_true, beq_iff_eq, decide_eq_true_eq] at htl4
            obtain ⟨⟨hr3s, hr3l⟩, htl4⟩ := htl4
            refine ⟨sliceR src ⟨x1.start, rr.start⟩, ⟨x2.start, r3.start⟩, r3.stop, rest4,
              ?_, show p ≤ x2.start from by omega, show x2.start ≤ r3.start from by omega,
              show r3.start ≤ r3.stop from by omega, by omega, ?_, ?_⟩
            · simp only [parse_wikilink, hff1, ha1, htags]
            · exact htl4
            · intro x hx
              exact List.mem_cons_of_mem _
                (hsub x (List.mem_cons_of_mem _ (hsub2 x (List.mem_cons_of_mem _ hx))))
          · -- alias scan ran off the span end
            right
            refine ⟨q, ?_, by omega, le_rfl, fun _ => rfl⟩
            have ha1 : parse_wikilink_alias ((t2, x2) :: rest3p) =
                (Except.error (.ReParse ⟨x2.start, q⟩), []) := he2
            simp only [parse_wikilink, hff1, ha1, ParseError.extend_before, htags]
      · -- RRBra: the no-alias wikilink
        subst ht
        left
        refine ⟨sliceR src ⟨x1.start, rr.start⟩, ⟨x1.start, rr.start⟩, rr.stop, rest2,
          ?_, show p ≤ x1.start from by omega, show x1.start ≤ rr.start from by omega,
          show rr.start ≤ rr.stop from by omega, by omega, ?_, ?_⟩
        · simp only [parse_wikilink, hff1, htags]
        · exact htl2
        · intro x hx
          exact List.mem_cons_of_mem _ (hsub x (List.mem_cons_of_mem _ hx))
    · -- first field scan ran off the span end
      right
      refine ⟨q, ?_, by omega, le_rfl, fun _ => rfl⟩
      have hff1 : parse_wikilink_first_field ((t1, x1) :: ts1) =
          (Except.error (.ReParse ⟨x1.start, q⟩), []) := he
      simp only [parse_wikilink, hff1, ParseError.extend_before, htags]

/-! ## `runP`: unfolding lemmas, totality, bounds, coverage -/

theorem runP_nil (src : List Char) (ts : List TokR) (h : skipNewlines ts = []) :
    runP src ts = some [] := by
  rw [runP.eq_def, h]

theorem runP_ok (src : List Char) (ts ts' : List TokR) (r : Rng) (evs : List EvR)
    (rest : List TokR) (h : skipNewlines ts = (Tok.LLBra, r) :: ts')
    (h2 : parse_wikilink src ((Tok.LLBra, r) :: ts') = some (.ok evs, rest)) :
    runP src ts = (runP src rest).map (fun es => evs ++ es) := by
  rw [runP.eq_def, h]
  simp only [reduceDIte]
  split
  all_goals rename_i heq
  · rw [h2] at heq; cases heq
  · rw [h2] at heq
    injection heq with heq2
    injection heq2 with ha hb
    injection ha with hc
    subst hc hb
    rfl
  · rw [h2] at heq; cases heq
  · rw [h2] at heq; cases heq

theorem runP_err (src : List Char) (ts ts' : List TokR) (r rr : Rng) (rest : List TokR)
    (h : skipNewlines ts = (Tok.LLBra, r) :: ts')
    (h2 : parse_wikilink src ((Tok.LLBra, r) :: ts') = some (.error (.ReParse rr), rest)) :
    runP src ts = (runP src rest).map (fun es => (Event.Text (sliceR src rr), rr) :: es) := by
  rw [runP.eq_def, h]
  simp only [reduceDIte]
  split
  all_goals rename_i heq
  · rw [h2] at heq; cases heq
  · rw [h2] at heq; cases heq
  · rw [h2] at heq
    injection heq with heq2
    injection heq2 with ha hb
    injection ha with hc
    injection hc with hd
    subst hd hb
    rfl
  · rw [h2] at heq; cases heq

theorem runP_text (src : List Char) (ts ts' : List TokR) (t : Tok) (r : Rng)
    (h : skipNewlines ts = (t, r) :: ts') (ht : t ≠ Tok.LLBra) :
    runP src ts = (runP src (parseTextLoop r.start r.start ((t, r) :: ts')).2).map
      (fun es => (Event.Text (sliceR src (parseTextLoop r.start r.start ((t, r) :: ts')).1),
        (parseTextLoop r.start r.start ((t, r) :: ts')).1) :: es) := by
  rw [runP.eq_def, h]
  simp only [ht, reduceDIte]

/-- The first loop step of `parse_text` on a non-`LLBra` head consumes it. -/
theorem parseTextLoop_step (start curr : Nat) (t : Tok) (r : Rng) (ts : List TokR)
    (ht : t ≠ Tok.LLBra) :
    parseTextLoop start curr ((t, r) :: ts) = parseTextLoop start r.stop ts := by
  match t with
  | Tok.LLBra => exact absurd rfl ht
  | Tok.RRBra | Tok.NewLine | Tok.Pipe | Tok.Other s => rfl

/-- Skipping the leading newlines of a tiled token list: what remains tiles
a later suffix `[p1, q)` of the span, and (when the `NewLine` tokens cover
line-break characters) the skipped positions `[p, p1)` are all line
breaks. -/
theorem skipNewlines_spec (src : List Char) :
    ∀ (ts : List TokR) (p q : Nat), tokTilesB p q ts = true →
    ∃ p1, p ≤ p1 ∧ tokTilesB p1 q (skipNewlines ts) = true ∧
      (∀ x ∈ skipNewlines ts, x ∈ ts) ∧
      (nlTok src ts → nlRunB src p (p1 - p) = true) := by
  intro ts
  induction ts with
  | nil =>
    intro p q h
    exact ⟨p, le_rfl, h, fun x hx => hx, fun _ => by simpa using nlRunB_zero src p⟩
  | cons hd tl ih =>
    intro p q h
    match hd with
    | (Tok.NewLine, r) =>
      simp only [tokTilesB, Bool.and_eq_true, beq_iff_eq, decide_eq_true_eq] at h
      obtain ⟨⟨hs, hlt⟩, htail⟩ := h
      obtain ⟨p1, hle, htiles, hsub, hnl⟩ := ih r.stop q htail
      refine ⟨p1, by omega, ?_, ?_, ?_⟩
      · simpa [skipNewlines] using htiles
      · intro x hx
        exact List.mem_cons_of_mem _ (hsub x (by simpa [skipNewlines] using hx))
      · intro hnt
        have h1 : nlRunB src p (r.stop - p) = true := by
          rw [nlRunB_iff]
          intro j hj1 hj2
          exact hnt r (List.mem_cons_self _ _) j (by omega) (by omega)
        have h2 : nlRunB src r.stop (p1 - r.stop) = true :=
          hnl fun rr hrr => hnt rr (List.mem_cons_of_mem _ hrr)
        exact nlRunB_concat src p r.stop p1 (by omega) hle h1 h2
    | (Tok.LLBra, r) | (Tok.RRBra, r) | (Tok.Pipe, r) | (Tok.Other s, r) =>
      refine ⟨p, le_rfl, by simpa [skipNewlines] using h, fun x hx => by
        simpa [skipNewlines] using hx, fun _ => by simpa using nlRunB_zero src p⟩

/-- `WikiParser::next` never reaches a panic or an `unreachable!()` arm:
the denotation of draining the parser is always defined, whatever the
token stream. -/
theorem runP_isSome (src : List Char) : ∀ ts : List TokR, (runP src ts).isSome = true := by
  intro ts
  induction ts using runP.induct src with
  | case1 ts h1 => simp [runP_nil src ts h1]
  | case2 ts r ts' h1 h2 =>
    have := parse_wikilink_isSome src Tok.LLBra r ts'
    rw [h2] at this
    simp at this
  | case3 ts r ts' evs rest h1 h2 ih =>
    rw [runP_ok src ts ts' r evs rest h1 h2]
    simpa using ih
  | case4 ts r ts' rr rest h1 h2 ih =>
    rw [runP_err src ts ts' r rr rest h1 h2]
    simpa using ih
  | case5 ts r ts' rest h1 h2 =>
    exact absurd h2 (parse_wikilink_error_ne_Empty src _ rest)
  | case6 ts t r ts' h1 ht pr ih =>
    rw [runP_text src ts ts' t r h1 ht]
    simpa using ih

/-- The parser yields no event at all exactly when the span consists of
nothing but skipped newlines. -/
theorem runP_eq_nil (src : List Char) : ∀ ts : List TokR,
    runP src ts = some [] → skipNewlines ts = [] := by
  intro ts
  induction ts using runP.induct src with
  | case1 ts h1 => intro _; exact h1
  | case2 ts r ts' h1 h2 =>
    have := parse_wikilink_isSome src Tok.LLBra r ts'
    rw [h2] at this
    simp at this
  | case3 ts r ts' evs rest h1 h2 ih =>
    intro h
    rw [runP_ok src ts ts' r evs rest h1 h2] at h
    obtain ⟨du, m, txt, hevs⟩ := parse_wikilink_ok_shape src _ evs rest h2
    subst hevs
    rcases Option.map_eq_some'.mp h with ⟨es, hes, habs⟩
    simp at habs
  | case4 ts r ts' rr rest h1 h2 ih =>
    intro h
    rw [runP_err src ts ts' r rr rest h1 h2] at h
    rcases Option.map_eq_some'.mp h with ⟨es, hes, habs⟩
    simp at habs
  | case5 ts r ts' rest h1 h2 =>
    exact absurd h2 (parse_wikilink_error_ne_Empty src _ rest)
  | case6 ts t r ts' h1 ht pr ih =>
    intro h
    rw [runP_text src ts ts' t r h1 ht] at h
    rcases Option.map_eq_some'.mp h with ⟨es, hes, habs⟩
    simp at habs

/-- Every event produced by draining the `WikiParser` over a token list
tiling `[p, q)` carries a valid range inside `[p, q]`. -/
theorem runP_bounds (src : List Char) : ∀ (ts : List TokR) (p q : Nat),
    tokTilesB p q ts = true → ∀ evs, runP src ts = some evs →
    ∀ er ∈ evs, p ≤ er.2.start ∧ er.2.start ≤ er.2.stop ∧ er.2.stop ≤ q := by
  intro ts
  induction ts using runP.induct src with
  | case1 ts h1 =>
    intro p q h evs hevs er her
    rw [runP_nil src ts h1] at hevs
    injection hevs with hevs
    subst hevs
    simp at her
  | case2 ts r ts' h1 h2 =>
    intro p q h
    have := parse_wikilink_isSome src Tok.LLBra r ts'
    rw [h2] at this
    simp at this
  | case3 ts r ts' evs rest h1 h2 ih =>
    intro p q h evs0 hevs0 er her
    obtain ⟨p1, hple, htiles, hsub, -⟩ := skipNewlines_spec src ts p q h
    rw [h1] at htiles hsub
    rcases parse_wikilink_spec src Tok.LLBra r ts' p1 q htiles with
      ⟨du, txt, m, rest0, hpw, h1a, h2a, h3a, h4a, htm, hsubpw⟩ | ⟨e2, hpw, hlt, hq2, hcond⟩
    · rw [h2] at hpw
      injection hpw with hpw1
      injection hpw1 with ha hb
      injection ha with hc
      subst hb
      subst hc
      rw [runP_ok src ts ts' r _ rest h1 h2] at hevs0
      rcases Option.map_eq_some'.mp hevs0 with ⟨es, hes, heq⟩
      subst heq
      have hmq : m ≤ q := tokTilesB_le rest m q htm
      rcases List.mem_append.mp her with hm | hm
      · simp only [List.mem_cons, List.not_mem_nil, or_false] at hm
        rcases hm with rfl | rfl | rfl
        · exact show p ≤ p1 ∧ p1 ≤ m ∧ m ≤ q from ⟨by omega, by omega, by omega⟩
        · exact show p ≤ txt.start ∧ txt.start ≤ txt.stop ∧ txt.stop ≤ q from
            ⟨by omega, by omega, by omega⟩
        · exact show p ≤ p1 ∧ p1 ≤ m ∧ m ≤ q from ⟨by omega, by omega, by omega⟩
      · have := ih m q htm es hes er hm
        exact ⟨by omega, by omega, by omega⟩
    · rw [h2] at hpw
      cases hpw
  | case4 ts r ts' rr rest h1 h2 ih =>
    intro p q h evs0 hevs0 er her
    obtain ⟨p1, hple, htiles, hsub, -⟩ := skipNewlines_spec src ts p q h
    rw [h1] at htiles hsub
    rcases parse_wikilink_spec src Tok.LLBra r ts' p1 q htiles with
      ⟨du, txt, m, rest0, hpw, h1a, h2a, h3a, h4a, htm, hsubpw⟩ | ⟨e2, hpw, hlt, hq2, hcond⟩
    · rw [h2] at hpw
      cases hpw
    · rw [h2] at hpw
      injection hpw with hpw1
      injection hpw1 with ha hb
      injection ha with hc
      injection hc with hd
      subst hd
      subst hb
      rw [runP_err src ts ts' r _ _ h1 h2] at hevs0
      rcases Option.map_eq_some'.mp hevs0 with ⟨es, hes, heq⟩
      subst heq
      have hes0 : es = [] := by
        rw [runP_nil src [] rfl] at hes
        injection hes with hes
        exact hes.symm
      subst hes0
      simp only [List.mem_cons, List.not_mem_nil, or_false] at her
      subst her
      exact show p ≤ p1 ∧ p1 ≤ e2 ∧ e2 ≤ q from ⟨by omega, by omega, by omega⟩
  | case5 ts r ts' rest h1 h2 =>
    exact absurd h2 (parse_wikilink_error_ne_Empty src _ rest)
  | case6 ts t r ts' h1 ht pr ih =>
    intro p q h evs0 hevs0 er her
    obtain ⟨p1, hple, htiles, hsub, -⟩ := skipNewlines_spec src ts p q h
    rw [h1] at htiles hsub
    have htiles2 := htiles
    simp only [tokTilesB, Bool.and_eq_true, beq_iff_eq, decide_eq_true_eq] at htiles2
    obtain ⟨⟨hrs, hrl⟩, htl⟩ := htiles2
    have hstep : parseTextLoop r.start r.start ((t, r) :: ts') =
        parseTextLoop r.start r.stop ts' := parseTextLoop_step r.start r.start t r ts' ht
    rw [runP_text src ts ts' t r h1 ht] at hevs0
    rcases parseTextLoop_spec r.start ts' r.stop q htl with
      ⟨rl, rest2, he, hc, htl2, hsub2⟩ | ⟨he, hc⟩
    · have hpr : (parseTextLoop r.start r.start ((t, r) :: ts')) =
          (⟨r.start, rl.start⟩, (Tok.LLBra, rl) :: rest2) := by rw [hstep, he]
      rw [hpr] at hevs0
      have hpr2 : pr.2 = (Tok.LLBra, rl) :: rest2 := by
        show (parseTextLoop r.start r.start ((t, r) :: ts')).2 = _
        rw [hpr]
      rw [hpr2] at ih
      rcases Option.map_eq_some'.mp hevs0 with ⟨es, hes, heq⟩
      subst heq
      have hrlq : rl.start ≤ q := tokTilesB_le _ rl.start q htl2
      rcases List.mem_cons.mp her with rfl | hm
      · exact show p ≤ r.start ∧ r.start ≤ rl.start ∧ rl.start ≤ q from
          ⟨by omega, by omega, by omega⟩
      · have := ih rl.start q htl2 es hes er hm
        exact ⟨by omega, by omega, by omega⟩
    · have hpr : (parseTextLoop r.start r.start ((t, r) :: ts')) = (⟨r.start, q⟩, []) := by
        rw [hstep, he]
      rw [hpr] at hevs0
      rcases Option.map_eq_some'.mp hevs0 with ⟨es, hes, heq⟩
      subst heq
      have hes0 : es = [] := by
        rw [runP_nil src [] rfl] at hes
        injection hes with hes
        exact hes.symm
      subst hes0
      simp only [List.mem_cons, List.not_mem_nil, or_false] at her
      subst her
      exact show p ≤ r.start ∧ r.start ≤ q ∧ q ≤ q from ⟨by omega, by omega, le_rfl⟩

/-- Draining the `WikiParser` over a token list tiling `[p, q)` yields an
event list whose cover tiles `[p, q)` up to newline gaps, provided no
structural `|` is the last token of the span (`noPipeEnd`). -/
theorem runP_tilesNl (src : List Char) : ∀ (ts : List TokR) (p q : Nat),
    tokTilesB p q ts = true → nlTok src ts → noPipeEnd q ts →
    ∀ evs, runP src ts = some evs → tilesNlB src p q (cover evs) = true := by
  intro ts
  induction ts using runP.induct src with
  | case1 ts h1 =>
    intro p q h hnt hnp evs hevs
    rw [runP_nil src ts h1] at hevs
    injection hevs with hevs
    subst hevs
    obtain ⟨p1, hple, htiles, hsub, hnl⟩ := skipNewlines_spec src ts p q h
    rw [h1] at htiles
    have hp1 : p1 = q := by simpa [tokTilesB] using htiles
    subst hp1
    simp only [cover, tilesNlB, Bool.and_eq_true, decide_eq_true_eq]
    exact ⟨hple, hnl hnt⟩
  | case2 ts r ts' h1 h2 =>
    intro p q h
    have := parse_wikilink_isSome src Tok.LLBra r ts'
    rw [h2] at this
    simp at this
  | case3 ts r ts' evs rest h1 h2 ih =>
    intro p q h hnt hnp evs0 hevs0
    obtain ⟨p1, hple, htiles, hsub, hnl⟩ := skipNewlines_spec src ts p q h
    rw [h1] at htiles hsub
    rcases parse_wikilink_spec src Tok.LLBra r ts' p1 q htiles with
      ⟨du, txt, m, rest0, hpw, h1a, h2a, h3a, h4a, htm, hsubpw⟩ | ⟨e2, hpw, hlt, hq2, hcond⟩
    · rw [h2] at hpw
      injection hpw with hpw1
      injection hpw1 with ha hb
      injection ha with hc
      subst hb
      subst hc
      rw [runP_ok src ts ts' r _ rest h1 h2] at hevs0
      rcases Option.map_eq_some'.mp hevs0 with ⟨es, hes, heq⟩
      subst heq
      have hihres := ih m q htm (fun rr hrr j hj1 hj2 =>
          hnt rr (hsub (Tok.NewLine, rr) (hsubpw (Tok.NewLine, rr) hrr)) j hj1 hj2)
        (fun rr hrr => hnp rr (hsub (Tok.Pipe, rr) (hsubpw (Tok.Pipe, rr) hrr))) es hes
      simp only [cover, tilesNlB, Bool.and_eq_true, decide_eq_true_eq]
      exact ⟨⟨⟨hple, hnl hnt⟩, by omega⟩, hihres⟩
    · rw [h2] at hpw
      cases hpw
  | case4 ts r ts' rr rest h1 h2 ih =>
    intro p q h hnt hnp evs0 hevs0
    obtain ⟨p1, hple, htiles, hsub, hnl⟩ := skipNewlines_spec src ts p q h
    rw [h1] at htiles hsub
    rcases parse_wikilink_spec src Tok.LLBra r ts' p1 q htiles with
      ⟨du, txt, m, rest0, hpw, h1a, h2a, h3a, h4a, htm, hsubpw⟩ | ⟨e2, hpw, hlt, hq2, hcond⟩
    · rw [h2] at hpw
      cases hpw
    · rw [h2] at hpw
      injection hpw with hpw1
      injection hpw1 with ha hb
      injection ha with hc
      injection hc with hd
      subst hd
      subst hb
      have he2 : e2 = q := hcond fun rr hrr => hnp rr (hsub (Tok.Pipe, rr) hrr)
      subst he2
      rw [runP_err src ts ts' r _ _ h1 h2] at hevs0
      rcases Option.map_eq_some'.mp hevs0 with ⟨es, hes, heq⟩
      subst heq
      have hes0 : es = [] := by
        rw [runP_nil src [] rfl] at hes
        injection hes with hes
        exact hes.symm
      subst hes0
      simp only [cover, tilesNlB, Bool.and_eq_true, decide_eq_true_eq]
      refine ⟨⟨⟨hple, hnl hnt⟩, by omega⟩, le_rfl, ?_⟩
      simpa using nlRunB_zero src e2
  | case5 ts r ts' rest h1 h2 =>
    exact absurd h2 (parse_wikilink_error_ne_Empty src _ rest)
  | case6 ts t r ts' h1 ht pr ih =>
    intro p q h hnt hnp evs0 hevs0
    obtain ⟨p1, hple, htiles, hsub, hnl⟩ := skipNewlines_spec src ts p q h
    rw [h1] at htiles hsub
    have htiles2 := htiles
    simp only [tokTilesB, Bool.and_eq_true, beq_iff_eq, decide_eq_true_eq] at htiles2
    obtain ⟨⟨hrs, hrl⟩, htl⟩ := htiles2
    have hstep : parseTextLoop r.start r.start ((t, r) :: ts') =
        parseTextLoop r.start r.stop ts' := parseTextLoop_step r.start r.start t r ts' ht
    rw [runP_text src ts ts' t r h1 ht] at hevs0
    rcases parseTextLoop_spec r.start ts' r.stop q htl with
      ⟨rl, rest2, he, hc, htl2, hsub2⟩ | ⟨he, hc⟩
    · have hpr : (parseTextLoop r.start r.start ((t, r) :: ts')) =
          (⟨r.start, rl.start⟩, (Tok.LLBra, rl) :: rest2) := by rw [hstep, he]
      rw [hpr] at hevs0
      have hpr2 : pr.2 = (Tok.LLBra, rl) :: rest2 := by
        show (parseTextLoop r.start r.start ((t, r) :: ts')).2 = _
        rw [hpr]
      rw [hpr2] at ih
      rcases Option.map_eq_some'.mp hevs0 with ⟨es, hes, heq⟩
      subst heq
      have hihres := ih rl.start q htl2 (fun rr hrr j hj1 hj2 =>
          hnt rr (hsub (Tok.NewLine, rr)
            (List.mem_cons_of_mem _ (hsub2 (Tok.NewLine, rr) hrr))) j hj1 hj2)
        (fun rr hrr => hnp rr (hsub (Tok.Pipe, rr)
          (List.mem_cons_of_mem _ (hsub2 (Tok.Pipe, rr) hrr)))) es hes
      simp only [cover, tilesNlB, Bool.and_eq_true, decide_eq_true_eq]
      refine ⟨⟨⟨?_, ?_⟩, ?_⟩, hihres⟩
      · show p ≤ r.start
        omega
      · show nlRunB src p (r.start - p) = true
        rw [show r.start = p1 from hrs]
        exact hnl hnt
      · show r.start < rl.start
        omega
    · have hpr : (parseTextLoop r.start r.start ((t, r) :: ts')) = (⟨r.start, q⟩, []) := by
        rw [hstep, he]
      rw [hpr] at hevs0
      rcases Option.map_eq_some'.mp hevs0 with ⟨es, hes, heq⟩
      subst heq
      have hes0 : es = [] := by
        rw [runP_nil src [] rfl] at hes
        injection hes with hes
        exact hes.symm
      subst hes0
      simp only [cover, tilesNlB, Bool.and_eq_true, decide_eq_true_eq]
      refine ⟨⟨⟨?_, ?_⟩, ?_⟩, le_rfl, ?_⟩
      · show p ≤ r.start
        omega
      · show nlRunB src p (r.start - p) = true
        rw [show r.start = p1 from hrs]
        exact hnl hnt
      · show r.start < q
        omega
      · simpa using nlRunB_zero src q

/-! ## From lexed slices back to the source -/

theorem slice_length (src : List Char) (a b : Nat) (hab : a ≤ b) (hb : b ≤ src.length) :
    (slice src a b).length = b - a := by
  simp [slice]
  omega

theorem slice_get? (src : List Char) (a b k : Nat) (hk : k < b - a) :
    (slice src a b).get? k = src.get? (a + k) := by
  rw [slice, List.get?_take hk, List.get?_drop]

/-- The lexer of a span's slice produces `NewLine` tokens only over
line-break positions of the full source. -/
theorem lex_slice_nlTok (src : List Char) (a b : Nat) (hab : a ≤ b) (hb : b ≤ src.length) :
    nlTok src (lex (slice src a b) a) := by
  intro r hr j hj1 hj2
  obtain ⟨j0, hj0, hch, hij⟩ := lex_newline (slice src a b) a r hr
  subst hj0
  have hj : j = j0 := by
    simp only at hj1 hj2
    omega
  subst hj
  have hbound := tokTilesB_bounds _ a (a + (slice src a b).length)
    (lex_tiles (slice src a b) a) (Tok.NewLine, ⟨j, j + 1⟩) hr
  have hlen : (slice src a b).length = b - a := slice_length src a b hab hb
  rw [hlen] at hbound
  have hjb : j - a < b - a := by
    simp only at hbound
    omega
  rw [slice_get? src a b (j - a) hjb] at hch
  rwa [show a + (j - a) = j from by omega] at hch

/-- If the span's final character is not `|`, no `Pipe` token of its lexed
slice stops at the span end. -/
theorem lex_slice_noPipeEnd (src : List Char) (a b : Nat) (hab : a ≤ b) (hb : b ≤ src.length)
    (hlast : src.get? (b - 1) ≠ some '|') :
    noPipeEnd b (lex (slice src a b) a) := by
  intro r hr hstop
  obtain ⟨j0, hj0, hch, hij⟩ := lex_pipe (slice src a b) a r hr
  subst hj0
  simp only at hstop
  have hj : j0 = b - 1 := by omega
  have hbound := tokTilesB_bounds _ a (a + (slice src a b).length)
    (lex_tiles (slice src a b) a) (Tok.Pipe, ⟨j0, j0 + 1⟩) hr
  have hlen : (slice src a b).length = b - a := slice_length src a b hab hb
  rw [hlen] at hbound
  have hjb : j0 - a < b - a := by
    simp only at hbound
    omega
  rw [slice_get? src a b (j0 - a) hjb] at hch
  rw [show a + (j0 - a) = j0 from by omega] at hch
  rw [hj] at hch
  exact hlast hch

theorem skipNewlines_eq_nil : ∀ ts : List TokR, skipNewlines ts = [] →
    ∀ tr ∈ ts, tr.1 = Tok.NewLine := by
  intro ts
  induction ts with
  | nil => intro _ tr htr; simp at htr
  | cons hd tl ih =>
    intro h tr htr
    match hd with
    | (Tok.NewLine, r) =>
      rcases List.mem_cons.mp htr with rfl | hm
      · rfl
      · exact ih (by simpa [skipNewlines] using h) tr hm
    | (Tok.LLBra, r) | (Tok.RRBra, r) | (Tok.Pipe, r) | (Tok.Other s, r) =>
      simp [skipNewlines] at h

/-! ## `wikiEvents` corollaries -/

/-- Every event of `WikiParser::new(source, a..b).collect()` stays inside
the constructor range: `a ≤ start ≤ stop ≤ b`. -/
theorem wikiEvents_bounds (src : List Char) (a b : Nat) (hab : a ≤ b) (hb : b ≤ src.length) :
    ∀ er ∈ wikiEvents src a b, a ≤ er.2.start ∧ er.2.start ≤ er.2.stop ∧ er.2.stop ≤ b := by
  intro er her
  have htiles : tokTilesB a b (lex (slice src a b) a) = true := by
    have := lex_tiles (slice src a b) a
    rwa [slice_length src a b hab hb, show a + (b - a) = b from by omega] at this
  obtain ⟨evs, hevs⟩ := Option.isSome_iff_exists.mp (runP_isSome src (lex (slice src a b) a))
  have hwe : wikiEvents src a b = evs := by rw [wikiEvents, hevs]; rfl
  rw [hwe] at her
  exact runP_bounds src (lex (slice src a b) a) a b htiles evs hevs er her

/-- The cover of `WikiParser::new(source, a..b).collect()` tiles `[a, b)`
up to newline gaps, provided the span does not end in `|`. -/
theorem wikiEvents_tilesNl (src : List Char) (a b : Nat) (hab : a ≤ b) (hb : b ≤ src.length)
    (hlast : src.get? (b - 1) ≠ some '|') :
    tilesNlB src a b (cover (wikiEvents src a b)) = true := by
  have htiles : tokTilesB a b (lex (slice src a b) a) = true := by
    have := lex_tiles (slice src a b) a
    rwa [slice_length src a b hab hb, show a + (b - a) = b from by omega] at this
  obtain ⟨evs, hevs⟩ := Option.isSome_iff_exists.mp (runP_isSome src (lex (slice src a b) a))
  have hwe : wikiEvents src a b = evs := by rw [wikiEvents, hevs]; rfl
  rw [hwe]
  exact runP_tilesNl src (lex (slice src a b) a) a b htiles
    (lex_slice_nlTok src a b hab hb) (lex_slice_noPipeEnd src a b hab hb hlast) evs hevs

/-- A span containing any character other than a line break makes the
`WikiParser` yield at least one event. -/
theorem wikiEvents_ne_nil (src : List Char) (a b : Nat) (hab : a ≤ b) (hb : b ≤ src.length)
    (hch : ∃ j, a ≤ j ∧ j < b ∧ src.get? j ≠ some '\n') :
    wikiEvents src a b ≠ [] := by
  intro hnil
  obtain ⟨j, hj1, hj2, hj3⟩ := hch
  obtain ⟨evs, hevs⟩ := Option.isSome_iff_exists.mp (runP_isSome src (lex (slice src a b) a))
  have hwe : wikiEvents src a b = evs := by rw [wikiEvents, hevs]; rfl
  rw [hwe] at hnil
  subst hnil
  have hskip := runP_eq_nil src (lex (slice src a b) a) hevs
  have hall := skipNewlines_eq_nil _ hskip
  have hjb : j - a < b - a := by omega
  have hsome : (slice src a b).get? (j - a) = src.get? j := by
    rw [slice_get? src a b (j - a) hjb, show a + (j - a) = j from by omega]
  have hlen : (slice src a b).length = b - a := slice_length src a b hab hb
  have hlt : j - a < (slice src a b).length := by omega
  obtain ⟨c, hc⟩ : ∃ c, (slice src a b).get? (j - a) = some c := by
    rw [List.get?_eq_get hlt]
    exact ⟨_, rfl⟩
  have hcm : c ∈ slice src a b := List.get?_mem hc
  have hcne : c ≠ '\n' := by
    intro hcn
    subst hcn
    rw [hc] at hsome
    exact hj3 hsome.symm
  obtain ⟨tr, htr, htrne⟩ := lex_nonNewline (slice src a b) a ⟨c, hcm, hcne⟩
  exact htrne (hall tr htr)

/-! ## Computing the parser on well-formed wikilink token shapes -/

theorem skipNewlines_cons (t : Tok) (r : Rng) (ts : List TokR) (ht : t ≠ Tok.NewLine) :
    skipNewlines ((t, r) :: ts) = (t, r) :: ts := by
  match t with
  | Tok.NewLine => exact absurd rfl ht
  | Tok.LLBra | Tok.RRBra | Tok.Pipe | Tok.Other s => rfl

theorem tokTilesB_append_cons : ∀ (xs : List TokR) (p q : Nat) (t : Tok) (r : Rng)
    (ys : List TokR), tokTilesB p q (xs ++ ((t, r) :: ys)) = true →
    tokTilesB p r.start xs = true ∧ tokTilesB r.start q ((t, r) :: ys) = true := by
  intro xs
  induction xs with
  | nil =>
    intro p q t r ys h
    rw [List.nil_append] at h
    have hs : r.start = p := by
      simp only [tokTilesB, Bool.and_eq_true, beq_iff_eq, decide_eq_true_eq] at h
      exact h.1.1
    constructor
    · simp [tokTilesB, hs]
    · rw [hs]
      exact h
  | cons hd tl ih =>
    intro p q t r ys h
    match hd with
    | (t0, r0) =>
      simp only [List.cons_append, tokTilesB, Bool.and_eq_true, beq_iff_eq,
        decide_eq_true_eq] at h
      obtain ⟨⟨hs, hlt⟩, htail⟩ := h
      obtain ⟨ih1, ih2⟩ := ih r0.stop q t r ys htail
      refine ⟨?_, ih2⟩
      simp only [tokTilesB, Bool.and_eq_true, beq_iff_eq, decide_eq_true_eq]
      exact ⟨⟨hs, hlt⟩, ih1⟩

theorem firstFieldLoop_run : ∀ (tt : List TokR) (start curr : Nat) (t1 : Tok) (cl : Rng)
    (rest : List TokR), tokTilesB curr cl.start tt = true →
    (∀ tr ∈ tt, tr.1 ≠ Tok.Pipe ∧ tr.1 ≠ Tok.RRBra) →
    (t1 = Tok.Pipe ∨ t1 = Tok.RRBra) →
    firstFieldLoop start curr (tt ++ ((t1, cl) :: rest)) =
      (.ok ⟨start, cl.start⟩, (t1, cl) :: rest) := by
  intro tt
  induction tt with
  | nil =>
    intro start curr t1 cl rest h hfree ht1
    have hc : curr = cl.start := by simpa [tokTilesB] using h
    subst hc
    rcases ht1 with rfl | rfl
    · rfl
    · rfl
  | cons hd tl ih =>
    intro start curr t1 cl rest h hfree ht1
    match hd with
    | (t0, r0) =>
      simp only [tokTilesB, Bool.and_eq_true, beq_iff_eq, decide_eq_true_eq] at h
      obtain ⟨⟨hs, hlt⟩, htail⟩ := h
      have hfree0 := hfree (t0, r0) (List.mem_cons_self _ _)
      have hrec := ih start r0.stop t1 cl rest htail
        (fun tr htr => hfree tr (List.mem_cons_of_mem _ htr)) ht1
      rw [List.cons_append]
      match t0, hfree0 with
      | Tok.LLBra, _ | Tok.NewLine, _ | Tok.Other s, _ =>
        simpa [firstFieldLoop] using hrec
      | Tok.Pipe, hf => exact absurd rfl hf.1
      | Tok.RRBra, hf => exact absurd rfl hf.2

theorem aliasLoop_run : ∀ (aa : List TokR) (start curr : Nat) (cl : Rng)
    (rest : List TokR), tokTilesB curr cl.start aa = true →
    (∀ tr ∈ aa, tr.1 ≠ Tok.RRBra) →
    aliasLoop start curr (aa ++ ((Tok.RRBra, cl) :: rest)) =
      (.ok ⟨start, cl.start⟩, (Tok.RRBra, cl) :: rest) := by
  intro aa
  induction aa with
  | nil =>
    intro start curr cl rest h hfree
    have hc : curr = cl.start := by simpa [tokTilesB] using h
    subst hc
    rfl
  | cons hd tl ih =>
    intro start curr cl rest h hfree
    match hd with
    | (t0, r0) =>
      simp only [tokTilesB, Bool.and_eq_true, beq_iff_eq, decide_eq_true_eq] at h
      obtain ⟨⟨hs, hlt⟩, htail⟩ := h
      have hfree0 := hfree (t0, r0) (List.mem_cons_self _ _)
      have hrec := ih start r0.stop cl rest htail
        (fun tr htr => hfree tr (List.mem_cons_of_mem _ htr))
      rw [List.cons_append]
      match t0, hfree0 with
      | Tok.LLBra, _ | Tok.NewLine, _ | Tok.Other s, _ | Tok.Pipe, _ =>
        simpa [aliasLoop] using hrec
      | Tok.RRBra, hf => exact absurd rfl hf

/-- `parse_wikilink` on a well-formed `[[target]]` token shape: the target
tokens `tt` contain neither a `Pipe` nor a `RRBra`, so the first-field
scan stops exactly at the closing `]]` and the no-alias triple is built. -/
theorem parse_wikilink_run_noalias (src : List Char) (t0 : Tok) (tag cl : Rng)
    (tt rest : List TokR)
    (htt : tokTilesB tag.stop cl.start tt = true)
    (hfree : ∀ tr ∈ tt, tr.1 ≠ Tok.Pipe ∧ tr.1 ≠ Tok.RRBra) :
    parse_wikilink src ((t0, tag) :: (tt ++ ((Tok.RRBra, cl) :: rest))) =
      some (.ok [(Event.Start (Tag.Link .Inline (sliceR src ⟨tag.stop, cl.start⟩)
                    "wiki".toList []), ⟨tag.start, cl.stop⟩),
                 (Event.Text (sliceR src ⟨tag.stop, cl.start⟩), ⟨tag.stop, cl.start⟩),
                 (Event.End .Link, ⟨tag.start, cl.stop⟩)], rest) := by
  have hff : parse_wikilink_first_field (tt ++ ((Tok.RRBra, cl) :: rest)) =
      (.ok ⟨tag.stop, cl.start⟩, (Tok.RRBra, cl) :: rest) := by
    match tt, htt with
    | [], htt =>
      have hc : tag.stop = cl.start := by simpa [tokTilesB] using htt
      rw [List.nil_append, show (⟨tag.stop, cl.start⟩ : Rng) = ⟨cl.start, cl.start⟩ from
        by rw [hc]]
      exact firstFieldLoop_run [] cl.start cl.start Tok.RRBra cl rest
        (by simp [tokTilesB]) (by simp) (Or.inr rfl)
    | (th, rh) :: tt', htt =>
      have hs : rh.start = tag.stop := by
        simp only [tokTilesB, Bool.and_eq_true, beq_iff_eq, decide_eq_true_eq] at htt
        exact htt.1.1
      rw [List.cons_append]
      show firstFieldLoop rh.start rh.start ((th, rh) :: (tt' ++ ((Tok.RRBra, cl) :: rest))) = _
      rw [← List.cons_append, show (⟨tag.stop, cl.start⟩ : Rng) = ⟨rh.start, cl.start⟩ from
        by rw [hs]]
      exact firstFieldLoop_run ((th, rh) :: tt') rh.start rh.start Tok.RRBra cl rest
        (by rw [hs]; exact htt) hfree (Or.inr rfl)
  rw [parse_wikilink.eq_2, hff]

/-- `parse_wikilink` on a well-formed `[[target|alias]]` token shape: the
alias tokens `aa` may contain further `Pipe` tokens but no `RRBra`, and
the emitted `Text` is the alias re-sliced from the source. -/
theorem parse_wikilink_run_alias (src : List Char) (t0 : Tok) (tag pp cl : Rng)
    (tt aa rest : List TokR)
    (htt : tokTilesB tag.stop pp.start tt = true)
    (hfree : ∀ tr ∈ tt, tr.1 ≠ Tok.Pipe ∧ tr.1 ≠ Tok.RRBra)
    (haa : tokTilesB pp.stop cl.start aa = true)
    (hafree : ∀ tr ∈ aa, tr.1 ≠ Tok.RRBra) :
    parse_wikilink src
        ((t0, tag) :: (tt ++ ((Tok.Pipe, pp) :: (aa ++ ((Tok.RRBra, cl) :: rest))))) =
      some (.ok [(Event.Start (Tag.Link .Inline (sliceR src ⟨tag.stop, pp.start⟩)
                    "wiki".toList []), ⟨tag.start, cl.stop⟩),
                 (Event.Text (sliceR src ⟨pp.stop, cl.start⟩), ⟨pp.stop, cl.start⟩),
                 (Event.End .Link, ⟨tag.start, cl.stop⟩)], rest) := by
  have hff : parse_wikilink_first_field
      (tt ++ ((Tok.Pipe, pp) :: (aa ++ ((Tok.RRBra, cl) :: rest)))) =
      (.ok ⟨tag.stop, pp.start⟩, (Tok.Pipe, pp) :: (aa ++ ((Tok.RRBra, cl) :: rest))) := by
    match tt, htt with
    | [], htt =>
      have hc : tag.stop = pp.start := by simpa [tokTilesB] using htt
      rw [List.nil_append, show (⟨tag.stop, pp.start⟩ : Rng) = ⟨pp.start, pp.start⟩ from
        by rw [hc]]
      exact firstFieldLoop_run [] pp.start pp.start Tok.Pipe pp (aa ++ ((Tok.RRBra, cl) :: rest))
        (by simp [tokTilesB]) (by simp) (Or.inl rfl)
    | (th, rh) :: tt', htt =>
      have hs : rh.start = tag.stop := by
        simp only [tokTilesB, Bool.and_eq_true, beq_iff_eq, decide_eq_true_eq] at htt
        exact htt.1.1
      rw [List.cons_append]
      show firstFieldLoop rh.start rh.start
        ((th, rh) :: (tt' ++ ((Tok.Pipe, pp) :: (aa ++ ((Tok.RRBra, cl) :: rest))))) = _
      rw [← List.cons_append, show (⟨tag.stop, pp.start⟩ : Rng) = ⟨rh.start, pp.start⟩ from
        by rw [hs]]
      exact firstFieldLoop_run ((th, rh) :: tt') rh.start rh.start Tok.Pipe pp
        (aa ++ ((Tok.RRBra, cl) :: rest)) (by rw [hs]; exact htt) hfree (Or.inl rfl)
  have hal : parse_wikilink_alias (aa ++ ((Tok.RRBra, cl) :: rest)) =
      (.ok ⟨pp.stop, cl.start⟩, (Tok.RRBra, cl) :: rest) := by
    match aa, haa with
    | [], haa =>
      have hc : pp.stop = cl.start := by simpa [tokTilesB] using haa
      rw [List.nil_append, show (⟨pp.stop, cl.start⟩ : Rng) = ⟨cl.start, cl.start⟩ from
        by rw [hc]]
      exact aliasLoop_run [] cl.start cl.start cl rest (by simp [tokTilesB]) (by simp)
    | (th, rh) :: aa', haa =>
      have hs : rh.start = pp.stop := by
        simp only [tokTilesB, Bool.and_eq_true, beq_iff_eq, decide_eq_true_eq] at haa
        exact haa.1.1
      rw [List.cons_append]
      show aliasLoop rh.start rh.start ((th, rh) :: (aa' ++ ((Tok.RRBra, cl) :: rest))) = _
      rw [← List.cons_append, show (⟨pp.stop, cl.start⟩ : Rng) = ⟨rh.start, cl.start⟩ from
        by rw [hs]]
      exact aliasLoop_run ((th, rh) :: aa') rh.start rh.start cl rest
        (by rw [hs]; exact haa) hafree
  rw [parse_wikilink.eq_2, hff]
  simp only [hal]

/-! ## Claim theorems: the `WikiParser` (C1, C2, C3, C4, C9, C10) -/

/-- Claim C1, counterexample: the claim as stated — the ranges covered by
the emitted events (each `Text` range, each link triple counted once by
its outer range) reconstruct the scanned span exactly, gaplessly — fails
on the span `"\na"`: the parser silently skips the leading `NewLine`
token, emits only `Text "a"` over `[1, 2)`, and position `0` is covered by
no event. -/
theorem c1_counterexample :
    tilesB 0 2 (cover (wikiEvents "\na".toList 0 2)) = false := by
  have h : wikiEvents "\na".toList 0 2 = [(Event.Text ['a'], ⟨1, 2⟩)] := by
    rw [wikiEvents,
      runP_text "\na".toList _ [] (Tok.Other ['a']) ⟨1, 2⟩ (by rfl) (by decide)]
    simp only [parseTextLoop]
    rw [runP_nil "\na".toList [] (by rfl)]
    rfl
  rw [h]
  rfl

/-- Claim C1, amended: for every span of the source that does not end in
`|` (ruling out the data-dropping `ParseError::Empty` alias path, see C2),
the ranges covered by the emitted events — each `Text` event's range, and
each successfully parsed wikilink counted once by its outer `Start`/`End`
`Link` range, which subsumes the consumed `[[`, structural `|` and `]]` —
appear in emission order, without overlap or duplication, and cover the
whole span except for gaps that consist solely of newline characters (the
`NewLine` tokens `WikiParser::next` silently skips at the start of the
span and between segments). -/
theorem c1_coverage_up_to_newlines (src : List Char) (a b : Nat)
    (hab : a ≤ b) (hb : b ≤ src.length) (hlast : src.get? (b - 1) ≠ some '|') :
    tilesNlB src a b (cover (wikiEvents src a b)) = true :=
  wikiEvents_tilesNl src a b hab hb hlast

/-- Witness for C1 at the concrete span `"[[a]]\nx"` (a wikilink, a
skipped newline gap, then text). -/
theorem c1_witness :
    (0 ≤ 7 ∧ 7 ≤ "[[a]]\nx".toList.length ∧ "[[a]]\nx".toList.get? 6 ≠ some '|') ∧
    tilesNlB "[[a]]\nx".toList 0 7 (cover (wikiEvents "[[a]]\nx".toList 0 7)) = true :=
  ⟨⟨by decide, by decide, by decide⟩,
   c1_coverage_up_to_newlines "[[a]]\nx".toList 0 7 (by decide) (by decide) (by decide)⟩

/-- Claim C2, code bug: on the span `"[[abc|"` — a wikilink attempt whose
structural `|` is the last token — the alias scan fails with
`ParseError::Empty`, and `extend_before` turns that into a `ReParse` range
covering only the `[[` token.  The parser emits `Text "[["` over `[0, 2)`
and nothing else: the already-consumed characters `abc|` (positions 2–6)
are silently dropped, contradicting the claimed exact reconstruction of
the offending span (the spec's policy of no data loss names the intent;
every other failure path honours it). -/
theorem c2_alias_empty_failure_drops_input :
    wikiEvents "[[abc|".toList 0 6 = [(Event.Text ['[', '['], ⟨0, 2⟩)] := by
  rw [wikiEvents,
    runP_err "[[abc|".toList _ [(Tok.Other "abc".toList, ⟨2, 5⟩), (Tok.Pipe, ⟨5, 6⟩)]
      ⟨0, 2⟩ ⟨0, 2⟩ [] (by rfl) (by rfl),
    runP_nil "[[abc|".toList [] (by rfl)]
  rfl

/-- Claim C3, counterexample: the three events of a parsed `[[link]]` do
not all carry the outer byte range: the middle `Text` event carries the
target's own range `[2, 6)`, not the outer `[0, 8)` (as the crate's own
`parse_no_alias` test expects). -/
theorem c3_counterexample :
    (wikiEvents "[[link]]".toList 0 8).map Prod.snd = [⟨0, 8⟩, ⟨2, 6⟩, ⟨0, 8⟩] ∧
    (⟨2, 6⟩ : Rng) ≠ ⟨0, 8⟩ := by
  constructor
  · have h : wikiEvents "[[link]]".toList 0 8 =
        [(Event.Start (Tag.Link .Inline "link".toList "wiki".toList []), ⟨0, 8⟩),
         (Event.Text "link".toList, ⟨2, 6⟩),
         (Event.End .Link, ⟨0, 8⟩)] := by
      rw [wikiEvents,
        runP_ok "[[link]]".toList _ [(Tok.Other "link".toList, ⟨2, 6⟩), (Tok.RRBra, ⟨6, 8⟩)]
          ⟨0, 2⟩ [(Event.Start (Tag.Link .Inline "link".toList "wiki".toList []), ⟨0, 8⟩),
                  (Event.Text "link".toList, ⟨2, 6⟩),
                  (Event.End .Link, ⟨0, 8⟩)] [] (by rfl) (by rfl),
        runP_nil "[[link]]".toList [] (by rfl)]
      rfl
    rw [h]
    rfl
  · decide

/-- Claim C3, amended: for every well-formed wikilink `[[target]]` heading
an eligible token span (the target tokens contain no `Pipe` and no
`RRBra`), the output starts with `Start(Link)` whose `dest_url` is the
source slice of the target and whose title is `"wiki"`, then
`Text(target)`, then `End(Link)`; the `Start` and `End` events share the
outer range of the full `[[target]]` span, while the middle `Text` event
carries the target's own inner range. -/
theorem c3_wellformed_wikilink (src : List Char) (p q : Nat) (tag cl : Rng)
    (tt rest : List TokR)
    (h : tokTilesB p q ((Tok.LLBra, tag) :: (tt ++ ((Tok.RRBra, cl) :: rest))) = true)
    (hfree : ∀ tr ∈ tt, tr.1 ≠ Tok.Pipe ∧ tr.1 ≠ Tok.RRBra) :
    ∃ tail, runP src ((Tok.LLBra, tag) :: (tt ++ ((Tok.RRBra, cl) :: rest))) =
      some ((Event.Start (Tag.Link .Inline (sliceR src ⟨tag.stop, cl.start⟩)
               "wiki".toList []), ⟨tag.start, cl.stop⟩) ::
            (Event.Text (sliceR src ⟨tag.stop, cl.start⟩), ⟨tag.stop, cl.start⟩) ::
            (Event.End .Link, ⟨tag.start, cl.stop⟩) :: tail) := by
  have h2 := h
  simp only [tokTilesB, Bool.and_eq_true, beq_iff_eq, decide_eq_true_eq] at h2
  obtain ⟨⟨htags, htagl⟩, hts⟩ := h2
  obtain ⟨htt, hcl⟩ := tokTilesB_append_cons tt tag.stop q Tok.RRBra cl rest hts
  obtain ⟨tail, htail⟩ := Option.isSome_iff_exists.mp (runP_isSome src rest)
  refine ⟨tail, ?_⟩
  rw [runP_ok src _ (tt ++ ((Tok.RRBra, cl) :: rest)) tag _ rest
    (skipNewlines_cons Tok.LLBra tag _ (by decide))
    (parse_wikilink_run_noalias src Tok.LLBra tag cl tt rest htt hfree), htail]
  rfl

/-- Witness for C3 at the concrete tokens of `"[[link]]"`. -/
theorem c3_witness :
    (tokTilesB 0 8 ((Tok.LLBra, ⟨0, 2⟩) :: ([(Tok.Other "link".toList, ⟨2, 6⟩)] ++
        ((Tok.RRBra, ⟨6, 8⟩) :: []))) = true) ∧
    ∃ tail, runP "[[link]]".toList ((Tok.LLBra, ⟨0, 2⟩) ::
        ([(Tok.Other "link".toList, ⟨2, 6⟩)] ++ ((Tok.RRBra, ⟨6, 8⟩) :: []))) =
      some ((Event.Start (Tag.Link .Inline (sliceR "[[link]]".toList ⟨2, 6⟩)
               "wiki".toList []), ⟨0, 8⟩) ::
            (Event.Text (sliceR "[[link]]".toList ⟨2, 6⟩), ⟨2, 6⟩) ::
            (Event.End .Link, ⟨0, 8⟩) :: tail) :=
  ⟨by decide, c3_wellformed_wikilink "[[link]]".toList 0 8 ⟨0, 2⟩ ⟨6, 8⟩
    [(Tok.Other "link".toList, ⟨2, 6⟩)] [] (by decide) (by decide)⟩

/-- Claim C4: for every well-formed wikilink `[[target|alias]]` heading an
eligible token span (target tokens free of `Pipe` and `RRBra`; alias
tokens free of `RRBra` but free to contain further `Pipe` tokens), the
output is `Start(Link)` with `dest_url` the source slice of the target,
then `Text(alias)` — the alias re-sliced verbatim from the source, so any
further `|` characters appear in it — then `End(Link)`.  Only the first
`|` after the target is structural. -/
theorem c4_wellformed_alias_wikilink (src : List Char) (p q : Nat) (tag pp cl : Rng)
    (tt aa rest : List TokR)
    (h : tokTilesB p q ((Tok.LLBra, tag) ::
        (tt ++ ((Tok.Pipe, pp) :: (aa ++ ((Tok.RRBra, cl) :: rest))))) = true)
    (hfree : ∀ tr ∈ tt, tr.1 ≠ Tok.Pipe ∧ tr.1 ≠ Tok.RRBra)
    (hafree : ∀ tr ∈ aa, tr.1 ≠ Tok.RRBra) :
    ∃ tail, runP src ((Tok.LLBra, tag) ::
        (tt ++ ((Tok.Pipe, pp) :: (aa ++ ((Tok.RRBra, cl) :: rest))))) =
      some ((Event.Start (Tag.Link .Inline (sliceR src ⟨tag.stop, pp.start⟩)
               "wiki".toList []), ⟨tag.start, cl.stop⟩) ::
            (Event.Text (sliceR src ⟨pp.stop, cl.start⟩), ⟨pp.stop, cl.start⟩) ::
            (Event.End .Link, ⟨tag.start, cl.stop⟩) :: tail) := by
  have h2 := h
  simp only [tokTilesB, Bool.and_eq_true, beq_iff_eq, decide_eq_true_eq] at h2
  obtain ⟨⟨htags, htagl⟩, hts⟩ := h2
  obtain ⟨htt, hpipe⟩ := tokTilesB_append_cons tt tag.stop q Tok.Pipe pp
    (aa ++ ((Tok.RRBra, cl) :: rest)) hts
  have hpipe2 := hpipe
  simp only [tokTilesB, Bool.and_eq_true, beq_iff_eq, decide_eq_true_eq] at hpipe2
  obtain ⟨⟨hpps, hppl⟩, haarest⟩ := hpipe2
  obtain ⟨haa, hcl⟩ := tokTilesB_append_cons aa pp.stop q Tok.RRBra cl rest haarest
  obtain ⟨tail, htail⟩ := Option.isSome_iff_exists.mp (runP_isSome src rest)
  refine ⟨tail, ?_⟩
  rw [runP_ok src _ (tt ++ ((Tok.Pipe, pp) :: (aa ++ ((Tok.RRBra, cl) :: rest)))) tag _ rest
    (skipNewlines_cons Tok.LLBra tag _ (by decide))
    (parse_wikilink_run_alias src Tok.LLBra tag pp cl tt aa rest htt hfree haa hafree), htail]
  rfl

/-- Witness for C4 at the concrete tokens of `"[[a|b|c]]"`: the second `|`
is ordinary alias content. -/
theorem c4_witness :
    (tokTilesB 0 9 ((Tok.LLBra, ⟨0, 2⟩) :: ([(Tok.Other ['a'], ⟨2, 3⟩)] ++
        ((Tok.Pipe, ⟨3, 4⟩) :: ([(Tok.Other ['b'], ⟨4, 5⟩), (Tok.Pipe, ⟨5, 6⟩),
          (Tok.Other ['c'], ⟨6, 7⟩)] ++ ((Tok.RRBra, ⟨7, 9⟩) :: []))))) = true) ∧
    ∃ tail, runP "[[a|b|c]]".toList ((Tok.LLBra, ⟨0, 2⟩) :: ([(Tok.Other ['a'], ⟨2, 3⟩)] ++
        ((Tok.Pipe, ⟨3, 4⟩) :: ([(Tok.Other ['b'], ⟨4, 5⟩), (Tok.Pipe, ⟨5, 6⟩),
          (Tok.Other ['c'], ⟨6, 7⟩)] ++ ((Tok.RRBra, ⟨7, 9⟩) :: []))))) =
      some ((Event.Start (Tag.Link .Inline (sliceR "[[a|b|c]]".toList ⟨2, 3⟩)
               "wiki".toList []), ⟨0, 9⟩) ::
            (Event.Text (sliceR "[[a|b|c]]".toList ⟨4, 7⟩), ⟨4, 7⟩) ::
            (Event.End .Link, ⟨0, 9⟩) :: tail) :=
  ⟨by decide, c4_wellformed_alias_wikilink "[[a|b|c]]".toList 0 9 ⟨0, 2⟩ ⟨3, 4⟩ ⟨7, 9⟩
    [(Tok.Other ['a'], ⟨2, 3⟩)]
    [(Tok.Other ['b'], ⟨4, 5⟩), (Tok.Pipe, ⟨5, 6⟩), (Tok.Other ['c'], ⟨6, 7⟩)] []
    (by decide) (by decide) (by decide)⟩

/-- Claim C9, counterexample: a non-empty `Text` span consisting of a
single newline, routed to a fresh `WikiParser` in the `Plain` state,
yields zero events, so the overlay's
`expect("an empty text should not be possible here")` panics — modelled
here by `overlayRun` returning `none`. -/
theorem c9_counterexample :
    overlayRun "\n".toList false false [(Event.Text ['\n'], ⟨0, 1⟩)] = none := by
  have h : wikiEvents "\n".toList 0 1 = [] := by
    rw [wikiEvents, runP_nil "\n".toList _ (by rfl)]
    rfl
  simp only [overlayRun, overlayNext, Bool.or_self, Bool.false_eq_true, reduceIte]
  rw [h]

/-- Claim C9, amended: the `WikiParser` itself never reaches a panic or an
`unreachable!()` arm (draining it is total on every token stream: the
terminator after a successful first-field scan is always `Pipe` or
`CloseBracket`, and failures never carry the `Empty` variant); and the
parser yields at least one event for every routed span that contains at
least one character other than a line break — an all-newline span,
however, yields zero events and would make the overlay's `expect` panic
(see the counterexample). -/
theorem c9_no_panic (src : List Char) (ts : List TokR) (a b : Nat) :
    (runP src ts).isSome = true ∧
    (a ≤ b → b ≤ src.length → (∃ j, a ≤ j ∧ j < b ∧ src.get? j ≠ some '\n') →
      wikiEvents src a b ≠ []) :=
  ⟨runP_isSome src ts, fun hab hb hch => wikiEvents_ne_nil src a b hab hb hch⟩

/-- Witness for C9 at the one-character span `"a"`. -/
theorem c9_witness :
    (0 ≤ 1 ∧ 1 ≤ ("a".toList).length ∧
      (∃ j, 0 ≤ j ∧ j < 1 ∧ ("a".toList).get? j ≠ some '\n')) ∧
    wikiEvents "a".toList 0 1 ≠ [] :=
  ⟨⟨by decide, by decide, ⟨0, by decide, by decide, by decide⟩⟩,
   (c9_no_panic "a".toList [] 0 1).2 (by decide) (by decide)
     ⟨0, by decide, by decide, by decide⟩⟩

/-- Claim C10: every `(Event, range)` pair yielded by a `WikiParser`
constructed over `source` and a valid range `a..b` of it has its range
contained within the constructor range: `a ≤ range.start` and
`range.stop ≤ b`. -/
theorem c10_ranges_within_span (src : List Char) (a b : Nat)
    (hab : a ≤ b) (hb : b ≤ src.length) :
    ∀ er ∈ wikiEvents src a b, a ≤ er.2.start ∧ er.2.stop ≤ b :=
  fun er her => ⟨(wikiEvents_bounds src a b hab hb er her).1,
    (wikiEvents_bounds src a b hab hb er her).2.2⟩

/-- Witness for C10 at the concrete span `"x[[a]]"`. -/
theorem c10_witness :
    (0 ≤ 6 ∧ 6 ≤ ("x[[a]]".toList).length) ∧
    ∀ er ∈ wikiEvents "x[[a]]".toList 0 6, 0 ≤ er.2.start ∧ er.2.stop ≤ 6 :=
  ⟨⟨by decide, by decide⟩,
   c10_ranges_within_span "x[[a]]".toList 0 6 (by decide) (by decide)⟩

/-! ## `TextJoiner` analysis -/

/-- The merge loop consumes exactly the maximal `Text` prefix, and the end
offset it returns is the fold of the consumed events' stops. -/
theorem joinRun_eq : ∀ (evs : List EvR) (e : Nat),
    joinRun e evs =
      ((evs.takeWhile isText).foldl (fun _ x => x.2.stop) e, evs.dropWhile isText) := by
  intro evs
  induction evs with
  | nil => intro e; rfl
  | cons hd tl ih =>
    intro e
    match hd with
    | (Event.Text x, r) =>
      simp only [joinRun, List.takeWhile_cons, List.dropWhile_cons]
      rw [show isText (Event.Text x, r) = true from rfl]
      simpa using ih r.stop
    | (Event.Start t, r) | (Event.End t, r) | (Event.OtherEv n, r) =>
      simp [joinRun, List.takeWhile_cons, List.dropWhile_cons, isText]

/-- The end offset of a merged run: the last consumed stop, or the default
when nothing is consumed. -/
def lastStop (e : Nat) (l : List EvR) : Nat :=
  l.foldl (fun _ x => x.2.stop) e

theorem lastStop_nil (e : Nat) : lastStop e [] = e := rfl

theorem lastStop_cons (e : Nat) (y : EvR) (l : List EvR) :
    lastStop e (y :: l) = lastStop y.2.stop l := rfl

theorem lastStop_getLast? : ∀ (l : List EvR) (e : Nat),
    lastStop e l = match l.getLast? with | none => e | some y => y.2.stop := by
  intro l
  induction l with
  | nil => intro e; rfl
  | cons hd tl ih =>
    intro e
    rw [lastStop_cons, ih hd.2.stop]
    match tl with
    | [] => rfl
    | y :: ys =>
      rw [List.getLast?_cons_cons,
        List.getLast?_eq_getLast (y :: ys) (by simp)]

/-- Positions chain: each event starts where the previous stopped. -/
def chained : Nat → List EvR → Prop
  | _, [] => True
  | e0, y :: ys => y.2.start = e0 ∧ chained y.2.stop ys

theorem lastStop_ge : ∀ (l : List EvR) (e : Nat), chained e l →
    (∀ y ∈ l, y.2.start ≤ y.2.stop) → e ≤ lastStop e l := by
  intro l
  induction l with
  | nil => intro e _ _; exact le_rfl
  | cons hd tl ih =>
    intro e hch hv
    obtain ⟨hs, hch2⟩ := hch
    have := ih hd.2.stop hch2 (fun y hy => hv y (List.mem_cons_of_mem _ hy))
    have hv0 := hv hd (List.mem_cons_self _ _)
    rw [lastStop_cons]
    omega

theorem sliceR_length (src : List Char) (r : Rng) (h1 : r.start ≤ r.stop)
    (h2 : r.stop ≤ src.length) : (sliceR src r).length = r.stop - r.start := by
  simp [sliceR]
  omega

/-- An empty-payload `Text` event that is well formed covers a zero-length
range. -/
theorem wfEventB_empty_text (src : List Char) (r : Rng)
    (h : wfEventB src (Event.Text [], r) = true) : r.start = r.stop := by
  simp only [wfEventB, Bool.and_eq_true, decide_eq_true_eq, beq_iff_eq] at h
  obtain ⟨⟨h1, h2⟩, h3⟩ := h
  have := sliceR_length src r h1 h2
  rw [← h3] at this
  simp at this
  omega

/-- Dropping zero-length `Text` events from a chained run of well-formed
`Text` events does not change the last stop. -/
theorem lastStop_dropEmpty : ∀ (l : List EvR) (e : Nat) (src : List Char), chained e l →
    (∀ y ∈ l, wfEventB src y = true) →
    lastStop e l = lastStop e (dropEmptyText l) := by
  intro l
  induction l with
  | nil => intro e src _ _; rfl
  | cons hd tl ih =>
    intro e src hch hwf
    obtain ⟨hs, hch2⟩ := hch
    have ihres := ih hd.2.stop src hch2 (fun y hy => hwf y (List.mem_cons_of_mem _ hy))
    match hd with
    | (Event.Text [], r) =>
      have hz : r.start = r.stop := wfEventB_empty_text src r (hwf _ (List.mem_cons_self _ _))
      rw [lastStop_cons]
      rw [show dropEmptyText ((Event.Text [], r) :: tl) = dropEmptyText tl from rfl]
      rw [ihres]
      congr 1
      show r.stop = e
      simp only at hs
      omega
    | (Event.Text (c :: x), r) =>
      rw [lastStop_cons,
        show dropEmptyText ((Event.Text (c :: x), r) :: tl) =
          (Event.Text (c :: x), r) :: dropEmptyText tl from rfl,
        lastStop_cons]
      exact ihres
    | (Event.Start t, r) =>
      rw [lastStop_cons,
        show dropEmptyText ((Event.Start t, r) :: tl) =
          (Event.Start t, r) :: dropEmptyText tl from rfl, lastStop_cons]
      exact ihres
    | (Event.End t, r) =>
      rw [lastStop_cons,
        show dropEmptyText ((Event.End t, r) :: tl) =
          (Event.End t, r) :: dropEmptyText tl from rfl, lastStop_cons]
      exact ihres
    | (Event.OtherEv n, r) =>
      rw [lastStop_cons,
        show dropEmptyText ((Event.OtherEv n, r) :: tl) =
          (Event.OtherEv n, r) :: dropEmptyText tl from rfl, lastStop_cons]
      exact ihres

theorem dropWhile_append_all (p : EvR → Bool) : ∀ (l1 l2 : List EvR),
    (∀ x ∈ l1, p x = true) → List.dropWhile p (l1 ++ l2) = List.dropWhile p l2 := by
  intro l1
  induction l1 with
  | nil => intro l2 _; rfl
  | cons hd tl ih =>
    intro l2 h
    rw [List.cons_append, List.dropWhile_cons, h hd (List.mem_cons_self _ _)]
    simp only [reduceIte]
    exact ih l2 (fun x hx => h x (List.mem_cons_of_mem _ hx))

theorem takeWhile_append_all (p : EvR → Bool) : ∀ (l1 l2 : List EvR),
    (∀ x ∈ l1, p x = true) → List.takeWhile p (l1 ++ l2) = l1 ++ List.takeWhile p l2 := by
  intro l1
  induction l1 with
  | nil => intro l2 _; rfl
  | cons hd tl ih =>
    intro l2 h
    rw [List.cons_append, List.takeWhile_cons, h hd (List.mem_cons_self _ _)]
    simp only [reduceIte]
    rw [ih l2 (fun x hx => h x (List.mem_cons_of_mem _ hx)), List.cons_append]

theorem textJoiner_nil (src : List Char) : textJoiner src [] = [] := by
  rw [textJoiner.eq_def]

theorem textJoiner_empty (src : List Char) (r : Rng) (rest : List EvR) :
    textJoiner src ((Event.Text [], r) :: rest) = textJoiner src rest := by
  rw [textJoiner.eq_def]
  simp

theorem textJoiner_text (src : List Char) (x : List Char) (r : Rng) (rest : List EvR)
    (hx : x ≠ []) :
    textJoiner src ((Event.Text x, r) :: rest) =
      (Event.Text (slice src r.start (joinRun r.stop ((Event.Text x, r) :: rest)).1),
        ⟨r.start, (joinRun r.stop ((Event.Text x, r) :: rest)).1⟩) ::
      textJoiner src (joinRun r.stop ((Event.Text x, r) :: rest)).2 := by
  rw [textJoiner.eq_def]
  simp [hx]

theorem textJoiner_start (src : List Char) (t : Tag) (r : Rng) (rest : List EvR) :
    textJoiner src ((Event.Start t, r) :: rest) =
      (Event.Start t, r) :: textJoiner src rest := by
  rw [textJoiner.eq_def]

theorem textJoiner_end (src : List Char) (t : TagEnd) (r : Rng) (rest : List EvR) :
    textJoiner src ((Event.End t, r) :: rest) =
      (Event.End t, r) :: textJoiner src rest := by
  rw [textJoiner.eq_def]

theorem textJoiner_otherEv (src : List Char) (n : Nat) (r : Rng) (rest : List EvR) :
    textJoiner src ((Event.OtherEv n, r) :: rest) =
      (Event.OtherEv n, r) :: textJoiner src rest := by
  rw [textJoiner.eq_def]

theorem groupTexts_nil (src : List Char) : groupTexts src [] = [] := by
  rw [groupTexts.eq_def]

theorem groupTexts_cons_text (src : List Char) (er : EvR) (rest : List EvR)
    (he : isText er = true) :
    groupTexts src (er :: rest) =
      (Event.Text (slice src er.2.start
          (((er :: rest.takeWhile isText).getLast (List.cons_ne_nil er _)).2.stop)),
        ⟨er.2.start, ((er :: rest.takeWhile isText).getLast (List.cons_ne_nil er _)).2.stop⟩) ::
      groupTexts src (rest.dropWhile isText) := by
  rw [groupTexts.eq_def]
  simp [he]

theorem groupTexts_cons_other (src : List Char) (er : EvR) (rest : List EvR)
    (he : isText er = false) :
    groupTexts src (er :: rest) = er :: groupTexts src rest := by
  rw [groupTexts.eq_def]
  simp [he]

theorem textContigB_tail : ∀ (e : EvR) (l : List EvR),
    textContigB (e :: l) = true → textContigB l = true := by
  intro e l h
  match l with
  | [] => rfl
  | y :: ys =>
    simp only [textContigB, Bool.and_eq_true] at h
    exact h.2

theorem wfEventsB_mem (src : List Char) (evs : List EvR) (h : wfEventsB src evs = true) :
    ∀ er ∈ evs, wfEventB src er = true := by
  simp only [wfEventsB, Bool.and_eq_true, List.all_eq_true] at h
  exact h.1

theorem wfEventsB_tail (src : List Char) (e : EvR) (l : List EvR)
    (h : wfEventsB src (e :: l) = true) : wfEventsB src l = true := by
  simp only [wfEventsB, Bool.and_eq_true, List.all_eq_true] at h ⊢
  exact ⟨fun x hx => h.1 x (List.mem_cons_of_mem _ hx), textContigB_tail e l h.2⟩

theorem wfEventsB_suffix (src : List Char) : ∀ (l1 l2 : List EvR),
    wfEventsB src (l1 ++ l2) = true → wfEventsB src l2 = true := by
  intro l1
  induction l1 with
  | nil => intro l2 h; exact h
  | cons hd tl ih =>
    intro l2 h
    exact ih l2 (wfEventsB_tail src hd (tl ++ l2) h)

/-- Inside a maximal text run following a text event, consecutive ranges
chain (each starts where the previous stopped). -/
theorem contig_chained : ∀ (l : List EvR) (ePrev : EvR), isText ePrev = true →
    textContigB (ePrev :: l) = true → chained ePrev.2.stop (l.takeWhile isText) := by
  intro l
  induction l with
  | nil => intro ePrev _ _; trivial
  | cons y ys ih =>
    intro ePrev hp h
    simp only [textContigB, Bool.and_eq_true] at h
    obtain ⟨hcond, htail⟩ := h
    match hy : isText y with
    | false => rw [List.takeWhile_cons, hy]; trivial
    | true =>
      rw [List.takeWhile_cons, hy]
      simp only [reduceIte]
      constructor
      · rw [hp, hy] at hcond
        exact (by simpa using hcond : ePrev.2.stop = y.2.start).symm
      · exact ih y hy htail

theorem dropWhile_head_false (p : EvR → Bool) : ∀ (l : List EvR) (y : EvR) (ys : List EvR),
    l.dropWhile p = y :: ys → p y = false := by
  intro l
  induction l with
  | nil => intro y ys h; simp at h
  | cons hd tl ih =>
    intro y ys h
    rw [List.dropWhile_cons] at h
    by_cases hp : p hd = true
    · rw [hp] at h
      simp only [reduceIte] at h
      exact ih y ys h
    · rw [Bool.not_eq_true] at hp
      rw [hp] at h
      simp only [Bool.false_eq_true, reduceIte] at h
      injection h with h1 h2
      subst h1
      exact hp

theorem dropEmptyText_cons_nonText (er : EvR) (l : List EvR) (he : isText er = false) :
    dropEmptyText (er :: l) = er :: dropEmptyText l := by
  match er, he with
  | (Event.Start t, r), _ => rfl
  | (Event.End t, r), _ => rfl
  | (Event.OtherEv n, r), _ => rfl

theorem dropEmptyText_mem : ∀ (l : List EvR) (x : EvR), x ∈ dropEmptyText l → x ∈ l := by
  intro l x hx
  exact List.mem_of_mem_filter hx

theorem mem_takeWhile_isText : ∀ (l : List EvR) (x : EvR), x ∈ l.takeWhile isText →
    x ∈ l ∧ isText x = true := by
  intro l
  induction l with
  | nil => intro x hx; simp at hx
  | cons hd tl ih =>
    intro x hx
    rw [List.takeWhile_cons] at hx
    by_cases hp : isText hd = true
    · rw [hp] at hx
      simp only [reduceIte] at hx
      rcases List.mem_cons.mp hx with rfl | hx2
      · exact ⟨List.mem_cons_self _ _, hp⟩
      · obtain ⟨h1, h2⟩ := ih x hx2
        exact ⟨List.mem_cons_of_mem _ h1, h2⟩
    · rw [Bool.not_eq_true] at hp
      rw [hp] at hx
      simp at hx

theorem dropEmptyText_append (l1 l2 : List EvR) :
    dropEmptyText (l1 ++ l2) = dropEmptyText l1 ++ dropEmptyText l2 :=
  List.filter_append l1 l2

theorem dropEmptyText_cons_text_ne (c : Char) (x : List Char) (r : Rng) (l : List EvR) :
    dropEmptyText ((Event.Text (c :: x), r) :: l) =
      (Event.Text (c :: x), r) :: dropEmptyText l := rfl

/-- Filtering the zero-length `Text` events commutes with splitting a
stream at the end of its maximal text run. -/
theorem dropEmpty_commute (rest : List EvR) :
    (dropEmptyText rest).takeWhile isText = dropEmptyText (rest.takeWhile isText) ∧
    (dropEmptyText rest).dropWhile isText = dropEmptyText (rest.dropWhile isText) := by
  have hsplit : rest.takeWhile isText ++ rest.dropWhile isText = rest :=
    List.takeWhile_append_dropWhile isText rest
  have hall : ∀ x ∈ dropEmptyText (rest.takeWhile isText), isText x = true :=
    fun x hx => (mem_takeWhile_isText rest x (dropEmptyText_mem _ x hx)).2
  constructor
  · conv_lhs => rw [← hsplit]
    rw [dropEmptyText_append, takeWhile_append_all isText _ _ hall]
    match hrw : rest.dropWhile isText with
    | [] =>
      rw [show dropEmptyText [] = [] from rfl]
      simp
    | y :: ys =>
      have hy := dropWhile_head_false isText rest y ys hrw
      rw [dropEmptyText_cons_nonText y ys hy, List.takeWhile_cons, hy]
      simp
  · conv_lhs => rw [← hsplit]
    rw [dropEmptyText_append, dropWhile_append_all isText _ _ hall]
    match hrw : rest.dropWhile isText with
    | [] => rfl
    | y :: ys =>
      have hy := dropWhile_head_false isText rest y ys hrw
      rw [dropEmptyText_cons_nonText y ys hy, List.dropWhile_cons, hy]
      simp

theorem wfEventsB_contig (src : List Char) (evs : List EvR)
    (h : wfEventsB src evs = true) : textContigB evs = true := by
  simp only [wfEventsB, Bool.and_eq_true] at h
  exact h.2

/-- The end offset the merge loop computes equals the stop of the last
surviving (non-zero-length) event of the run, or the initiating event's
stop when every following text event of the run is zero-length. -/
theorem lastStop_run_getLast (src : List Char) (x : List Char) (r : Rng) (tw : List EvR)
    (hch : chained r.stop tw) (hwf : ∀ y ∈ tw, wfEventB src y = true) :
    lastStop r.stop tw =
      (((Event.Text x, r) :: dropEmptyText tw).getLast (List.cons_ne_nil _ _)).2.stop := by
  rw [lastStop_dropEmpty tw r.stop src hch hwf, lastStop_getLast?]
  match hgl : dropEmptyText tw with
  | [] => simp [List.getLast]
  | y :: ys =>
    rw [List.getLast?_eq_getLast (y :: ys) (by simp),
      List.getLast_cons (by simp : (y :: ys : List EvR) ≠ [])]

/-- The `TextCoalescer` implementation equals its specification: dropping
the zero-length `Text` events and merging every maximal run of
consecutive `Text` events into one event, spanning first start to last
end and re-sliced from the source. -/
theorem textJoiner_eq_coalesceSpec (src : List Char) : ∀ (evs : List EvR),
    wfEventsB src evs = true → textJoiner src evs = coalesceSpec src evs := by
  intro evs
  induction evs using textJoiner.induct src with
  | case1 =>
    intro _
    rw [textJoiner_nil, coalesceSpec, show dropEmptyText [] = [] from rfl, groupTexts_nil]
  | case2 r rest ih =>
    intro h
    rw [textJoiner_empty, ih (wfEventsB_tail src _ rest h)]
    rw [coalesceSpec, coalesceSpec,
      show dropEmptyText ((Event.Text [], r) :: rest) = dropEmptyText rest from rfl]
  | case3 x r rest hx pr ih =>
    intro h
    rcases x with _ | ⟨c, x'⟩
    · exact absurd rfl hx
    · have hwtail : wfEventsB src rest = true := wfEventsB_tail src _ rest h
      have hjr : joinRun r.stop ((Event.Text (c :: x'), r) :: rest) =
          (lastStop r.stop (rest.takeWhile isText), rest.dropWhile isText) := by
        show joinRun r.stop rest = _
        rw [joinRun_eq]
        rfl
      have htext : textJoiner src ((Event.Text (c :: x'), r) :: rest) =
          (Event.Text (slice src r.start (lastStop r.stop (rest.takeWhile isText))),
            ⟨r.start, lastStop r.stop (rest.takeWhile isText)⟩) ::
          textJoiner src (rest.dropWhile isText) := by
        rw [textJoiner_text src (c :: x') r rest hx, hjr]
      have hpr2 : pr.2 = rest.dropWhile isText := by
        show (joinRun r.stop ((Event.Text (c :: x'), r) :: rest)).2 = _
        rw [hjr]
      rw [hpr2] at ih
      have hchain : chained r.stop (rest.takeWhile isText) :=
        contig_chained rest (Event.Text (c :: x'), r) rfl (wfEventsB_contig src _ h)
      have hwf_tw : ∀ y ∈ rest.takeWhile isText, wfEventB src y = true := fun y hy =>
        wfEventsB_mem src rest hwtail y (mem_takeWhile_isText rest y hy).1
      obtain ⟨hA, hA'⟩ := dropEmpty_commute rest
      have hstep1 : coalesceSpec src ((Event.Text (c :: x'), r) :: rest) =
          groupTexts src ((Event.Text (c :: x'), r) :: dropEmptyText rest) := by
        rw [coalesceSpec, dropEmptyText_cons_text_ne]
      have hcoal := groupTexts_cons_text src (Event.Text (c :: x'), r) (dropEmptyText rest) rfl
      have hsuffix : wfEventsB src (rest.dropWhile isText) = true :=
        wfEventsB_suffix src (rest.takeWhile isText) _
          (by rw [List.takeWhile_append_dropWhile]; exact hwtail)
      have hB : lastStop r.stop (rest.takeWhile isText) =
          ((((Event.Text (c :: x'), r) :: (dropEmptyText rest).takeWhile isText)).getLast
            (List.cons_ne_nil _ _)).2.stop := by
        rw [hA]
        exact lastStop_run_getLast src (c :: x') r (rest.takeWhile isText) hchain hwf_tw
      rw [htext, hstep1, hcoal, ← hB, hA', ih hsuffix]
      rfl
  | case4 er rest hner ih =>
    intro h
    have hnt : isText er = false := by
      match er, hner with
      | (Event.Text x, r), hner => exact absurd rfl (hner x r)
      | (Event.Start t, r), _ => rfl
      | (Event.End t, r), _ => rfl
      | (Event.OtherEv n, r), _ => rfl
    have hjoin : textJoiner src (er :: rest) = er :: textJoiner src rest := by
      match er, hner with
      | (Event.Text x, r), hner => exact absurd rfl (hner x r)
      | (Event.Start t, r), _ => exact textJoiner_start src t r rest
      | (Event.End t, r), _ => exact textJoiner_end src t r rest
      | (Event.OtherEv n, r), _ => exact textJoiner_otherEv src n r rest
    rw [hjoin, ih (wfEventsB_tail src _ rest h), coalesceSpec, coalesceSpec,
      dropEmptyText_cons_nonText er rest hnt, groupTexts_cons_other src er _ hnt]

theorem slice_ne_nil (src : List Char) (a b : Nat) (h1 : a < b) (h2 : a < src.length) :
    slice src a b ≠ [] := by
  have hlen : 0 < (slice src a b).length := by
    simp [slice]
    omega
  exact List.length_pos.mp hlen

theorem sliceR_ne_nil_facts (src : List Char) (r : Rng) (h : sliceR src r ≠ []) :
    r.start < r.stop ∧ r.start < src.length := by
  by_contra hcon
  apply h
  rw [sliceR]
  rcases Nat.lt_or_ge r.start r.stop with h1 | h1
  · have h2 : src.length ≤ r.start := by omega
    rw [List.drop_eq_nil_of_le h2]
    simp
  · rw [show r.stop - r.start = 0 from by omega]
    simp

/-- The coalescer output contains no empty `Text` event. -/
theorem textJoiner_no_empty (src : List Char) : ∀ (evs : List EvR),
    wfEventsB src evs = true →
    ∀ er ∈ textJoiner src evs, ∀ x, er.1 = Event.Text x → x ≠ [] := by
  intro evs
  induction evs using textJoiner.induct src with
  | case1 =>
    intro _ er her
    rw [textJoiner_nil] at her
    simp at her
  | case2 r rest ih =>
    intro h er her
    rw [textJoiner_empty] at her
    exact ih (wfEventsB_tail src _ rest h) er her
  | case3 x r rest hx pr ih =>
    intro h er her
    rcases x with _ | ⟨c, x'⟩
    · exact absurd rfl hx
    · have hwtail : wfEventsB src rest = true := wfEventsB_tail src _ rest h
      have hjr : joinRun r.stop ((Event.Text (c :: x'), r) :: rest) =
          (lastStop r.stop (rest.takeWhile isText), rest.dropWhile isText) := by
        show joinRun r.stop rest = _
        rw [joinRun_eq]
        rfl
      have htext : textJoiner src ((Event.Text (c :: x'), r) :: rest) =
          (Event.Text (slice src r.start (lastStop r.stop (rest.takeWhile isText))),
            ⟨r.start, lastStop r.stop (rest.takeWhile isText)⟩) ::
          textJoiner src (rest.dropWhile isText) := by
        rw [textJoiner_text src (c :: x') r rest hx, hjr]
      have hpr2 : pr.2 = rest.dropWhile isText := by
        show (joinRun r.stop ((Event.Text (c :: x'), r) :: rest)).2 = _
        rw [hjr]
      rw [hpr2] at ih
      rw [htext] at her
      have hsuffix : wfEventsB src (rest.dropWhile isText) = true :=
        wfEventsB_suffix src (rest.takeWhile isText) _
          (by rw [List.takeWhile_append_dropWhile]; exact hwtail)
      rcases List.mem_cons.mp her with rfl | hm
      · intro y hy
        injection hy with hy2
        subst hy2
        have hwfh := wfEventsB_mem src _ h _ (List.mem_cons_self _ _)
        simp only [wfEventB, Bool.and_eq_true, decide_eq_true_eq, beq_iff_eq] at hwfh
        obtain ⟨⟨hv1, hv2⟩, hpay⟩ := hwfh
        have hne : sliceR src r ≠ [] := by
          rw [← hpay]
          simp
        obtain ⟨hlt, hlen⟩ := sliceR_ne_nil_facts src r hne
        have hchain : chained r.stop (rest.takeWhile isText) :=
          contig_chained rest (Event.Text (c :: x'), r) rfl (wfEventsB_contig src _ h)
        have hge : r.stop ≤ lastStop r.stop (rest.takeWhile isText) := by
          apply lastStop_ge _ _ hchain
          intro y2 hy2
          have := wfEventsB_mem src rest hwtail y2 (mem_takeWhile_isText rest y2 hy2).1
          simp only [wfEventB, Bool.and_eq_true, decide_eq_true_eq] at this
          exact this.1.1
        exact slice_ne_nil src r.start (lastStop r.stop (rest.takeWhile isText))
          (by omega) hlen
      · exact ih hsuffix er hm
  | case4 er0 rest hner ih =>
    intro h er her
    have hjoin : textJoiner src (er0 :: rest) = er0 :: textJoiner src rest := by
      match er0, hner with
      | (Event.Text x, r), hner => exact absurd rfl (hner x r)
      | (Event.Start t, r), _ => exact textJoiner_start src t r rest
      | (Event.End t, r), _ => exact textJoiner_end src t r rest
      | (Event.OtherEv n, r), _ => exact textJoiner_otherEv src n r rest
    rw [hjoin] at her
    rcases List.mem_cons.mp her with rfl | hm
    · intro x hx
      match er, hner, hx with
      | (Event.Text x0, r), hner, _ => exact absurd rfl (hner x0 r)
      | (Event.Start t, r), _, hx => exact absurd hx (by simp)
      | (Event.End t, r), _, hx => exact absurd hx (by simp)
      | (Event.OtherEv n, r), _, hx => exact absurd hx (by simp)
    · exact ih (wfEventsB_tail src _ rest h) er hm

theorem noAdjTexts_cons (e : EvR) (l : List EvR) (hl : noAdjTexts l = true)
    (hh : ∀ z zs, l = z :: zs → (isText e && isText z) = false) :
    noAdjTexts (e :: l) = true := by
  match l with
  | [] => rfl
  | z :: zs =>
    simp only [noAdjTexts]
    rw [hh z zs rfl]
    simpa using hl

/-- On a list whose head is not a `Text` event (or which is empty), the
coalescer's output likewise starts with a non-`Text` event. -/
theorem textJoiner_head_nonText (src : List Char) (l : List EvR)
    (hl : l = [] ∨ ∃ y ys, l = y :: ys ∧ isText y = false) :
    textJoiner src l = [] ∨
      ∃ z zs, textJoiner src l = z :: zs ∧ isText z = false := by
  rcases hl with rfl | ⟨y, ys, rfl, hy⟩
  · left
    exact textJoiner_nil src
  · right
    match y, hy with
    | (Event.Start t, r), _ => exact ⟨_, _, textJoiner_start src t r ys, rfl⟩
    | (Event.End t, r), _ => exact ⟨_, _, textJoiner_end src t r ys, rfl⟩
    | (Event.OtherEv n, r), _ => exact ⟨_, _, textJoiner_otherEv src n r ys, rfl⟩

/-- The coalescer output never contains two consecutive `Text` events. -/
theorem textJoiner_no_adjacent (src : List Char) : ∀ (evs : List EvR),
    noAdjTexts (textJoiner src evs) = true := by
  intro evs
  induction evs using textJoiner.induct src with
  | case1 => rw [textJoiner_nil]; rfl
  | case2 r rest ih => rw [textJoiner_empty]; exact ih
  | case3 x r rest hx pr ih =>
    have hjr2 : (joinRun r.stop ((Event.Text x, r) :: rest)).2 = rest.dropWhile isText := by
      show (joinRun r.stop rest).2 = _
      rw [joinRun_eq]
    rw [textJoiner_text src x r rest hx]
    rw [hjr2] at ih ⊢
    apply noAdjTexts_cons _ _ ih
    intro z zs hz
    have hhead : rest.dropWhile isText = [] ∨
        ∃ y ys, rest.dropWhile isText = y :: ys ∧ isText y = false := by
      match hrw : rest.dropWhile isText with
      | [] => exact Or.inl rfl
      | y :: ys => exact Or.inr ⟨y, ys, rfl, dropWhile_head_false isText rest y ys hrw⟩
    rcases textJoiner_head_nonText src _ hhead with hnil | ⟨z2, zs2, hz2, hnt⟩
    · rw [hnil] at hz
      cases hz
    · rw [hz2] at hz
      injection hz with hz3 hz4
      subst hz3
      simp [hnt]
  | case4 er0 rest hner ih =>
    have hjoin : textJoiner src (er0 :: rest) = er0 :: textJoiner src rest := by
      match er0, hner with
      | (Event.Text x, r), hner => exact absurd rfl (hner x r)
      | (Event.Start t, r), _ => exact textJoiner_start src t r rest
      | (Event.End t, r), _ => exact textJoiner_end src t r rest
      | (Event.OtherEv n, r), _ => exact textJoiner_otherEv src n r rest
    rw [hjoin]
    apply noAdjTexts_cons _ _ ih
    intro z zs hz
    have hnt : isText er0 = false := by
      match er0, hner with
      | (Event.Text x, r), hner => exact absurd rfl (hner x r)
      | (Event.Start t, r), _ => rfl
      | (Event.End t, r), _ => rfl
      | (Event.OtherEv n, r), _ => rfl
    simp [hnt]

/-! ## Overlay analysis (C5, C6) -/

theorem validRangesB_iff (src : List Char) (evs : List EvR) :
    validRangesB src evs = true ↔
      ∀ er ∈ evs, er.2.start ≤ er.2.stop ∧ er.2.stop ≤ src.length := by
  simp [validRangesB, List.all_eq_true]

theorem overlayNext_pass (er : EvR) (out : List EvR) (m c m2 c2 : Bool)
    (h : ((some [er], m, c) : Option (List EvR) × Bool × Bool) = (some out, m2, c2)) :
    out = [er] := by
  injection h with h1 h2
  injection h1 with h1
  exact h1.symm

/-- One overlay step emits either the incoming event unchanged or the
`WikiParser` events of the incoming `Text` range. -/
theorem overlayNext_out (src : List Char) (m c : Bool) (er : EvR) (out : List EvR)
    (m2 c2 : Bool) (h : overlayNext src m c er = (some out, m2, c2)) :
    out = [er] ∨ out = wikiEvents src er.2.start er.2.stop := by
  rcases er with ⟨e, r⟩
  match e with
  | Event.Text x =>
    cases m with
    | true => exact Or.inl (overlayNext_pass _ out _ _ m2 c2 h)
    | false =>
      cases c with
      | true => exact Or.inl (overlayNext_pass _ out _ _ m2 c2 h)
      | false =>
        simp only [overlayNext, Bool.or_self, Bool.false_eq_true, reduceIte] at h
        rcases hW : wikiEvents src r.start r.stop with _ | ⟨ev, evs⟩
        · rw [hW] at h
          exact absurd h (by simp)
        · rw [hW] at h
          have h2 : ((some (ev :: evs), false, false) :
              Option (List EvR) × Bool × Bool) = (some out, m2, c2) := h
          injection h2 with h3 h4
          injection h3 with h3
          exact Or.inr h3.symm
  | Event.Start (Tag.Link lt d ti idf) => exact Or.inl (overlayNext_pass _ out _ _ m2 c2 h)
  | Event.Start (Tag.MetadataBlock k) => exact Or.inl (overlayNext_pass _ out _ _ m2 c2 h)
  | Event.Start (Tag.CodeBlock k) => exact Or.inl (overlayNext_pass _ out _ _ m2 c2 h)
  | Event.Start Tag.Paragraph => exact Or.inl (overlayNext_pass _ out _ _ m2 c2 h)
  | Event.Start (Tag.OtherTag n) => exact Or.inl (overlayNext_pass _ out _ _ m2 c2 h)
  | Event.End (TagEnd.MetadataBlock k) =>
    cases m with
    | true => exact Or.inl (overlayNext_pass _ out _ _ m2 c2 h)
    | false => exact Or.inl (overlayNext_pass _ out _ _ m2 c2 h)
  | Event.End TagEnd.CodeBlock =>
    cases c with
    | true => exact Or.inl (overlayNext_pass _ out _ _ m2 c2 h)
    | false => exact Or.inl (overlayNext_pass _ out _ _ m2 c2 h)
  | Event.End TagEnd.Link => exact Or.inl (overlayNext_pass _ out _ _ m2 c2 h)
  | Event.End TagEnd.Paragraph => exact Or.inl (overlayNext_pass _ out _ _ m2 c2 h)
  | Event.End (TagEnd.OtherTagEnd n) => exact Or.inl (overlayNext_pass _ out _ _ m2 c2 h)
  | Event.OtherEv n => exact Or.inl (overlayNext_pass _ out _ _ m2 c2 h)

/-- Every event the overlay emits over a valid input stream carries a
valid sub-range of the source. -/
theorem overlayRun_valid (src : List Char) : ∀ (evs : List EvR) (m c : Bool) (out : List EvR),
    validRangesB src evs = true → overlayRun src m c evs = some out →
    validRangesB src out = true := by
  intro evs
  induction evs with
  | nil =>
    intro m c out _ hrun
    simp only [overlayRun] at hrun
    injection hrun with h1
    rw [← h1]
    rfl
  | cons er rest ih =>
    intro m c out hv hrun
    have hver : er.2.start ≤ er.2.stop ∧ er.2.stop ≤ src.length :=
      (validRangesB_iff src (er :: rest)).mp hv er (List.mem_cons_self er rest)
    have hvrest : validRangesB src rest = true := by
      rw [validRangesB_iff] at hv ⊢
      exact fun e he => hv e (List.mem_cons_of_mem er he)
    simp only [overlayRun] at hrun
    rcases hnext : overlayNext src m c er with ⟨_ | o1, m2, c2⟩
    · rw [hnext] at hrun
      exact absurd hrun (by simp)
    · rw [hnext] at hrun
      have hrun2 : Option.map (fun es => o1 ++ es) (overlayRun src m2 c2 rest) = some out :=
        hrun
      rcases hrest : overlayRun src m2 c2 rest with _ | o2
      · rw [hrest] at hrun2
        exact absurd hrun2 (by simp)
      · rw [hrest] at hrun2
        simp only [Option.map_some'] at hrun2
        injection hrun2 with h1
        rw [← h1, validRangesB_iff]
        intro e he
        rcases List.mem_append.mp he with h1m | h2m
        · rcases overlayNext_out src m c er o1 m2 c2 hnext with rfl | hwe
          · rw [List.mem_singleton.mp h1m]
            exact hver
          · rw [hwe] at h1m
            have hb := wikiEvents_bounds src er.2.start er.2.stop hver.1 hver.2 e h1m
            exact ⟨hb.2.1, le_trans hb.2.2 hver.2⟩
        · exact (validRangesB_iff src o2).mp (ih m2 c2 o2 hvrest hrest) e h2m

/-! ## Claim theorems: overlay and coalescer (C5, C6, C7, C8) -/

/-- Claim C5: while `inside_metadata` or `inside_codeblock` is set, a
`Text` event passes through unchanged — it is never routed to a
`WikiParser`, so `[[...]]` inside a metadata or fenced code block yields
no `Link` event; the matching `End` event clears the corresponding flag,
returning the state to `Plain`; and a wikilink in a `Text` span
immediately following the closed block is still recognized, as the
concrete run over `"[[x]][[l]]"` (a code block covering the first five
characters) shows: the code-block text passes through verbatim and the
following span becomes a `Link` triple. -/
theorem c5_opaque_regions (src : List Char) (m c : Bool) (x : List Char) (r r2 : Rng)
    (k : MetaKind) (hmc : (m || c) = true) :
    overlayNext src m c (Event.Text x, r) = (some [(Event.Text x, r)], m, c) ∧
    overlayNext src true c (Event.End (TagEnd.MetadataBlock k), r2) =
      (some [(Event.End (TagEnd.MetadataBlock k), r2)], false, c) ∧
    overlayNext src m true (Event.End TagEnd.CodeBlock, r2) =
      (some [(Event.End TagEnd.CodeBlock, r2)], m, false) ∧
    overlayRun "[[x]][[l]]".toList false false
        [(Event.Start (Tag.CodeBlock 0), ⟨0, 5⟩),
         (Event.Text "[[x]]".toList, ⟨0, 5⟩),
         (Event.End TagEnd.CodeBlock, ⟨0, 5⟩),
         (Event.Text "[[l]]".toList, ⟨5, 10⟩)] =
      some [(Event.Start (Tag.CodeBlock 0), ⟨0, 5⟩),
            (Event.Text "[[x]]".toList, ⟨0, 5⟩),
            (Event.End TagEnd.CodeBlock, ⟨0, 5⟩),
            (Event.Start (Tag.Link .Inline ['l'] "wiki".toList []), ⟨5, 10⟩),
            (Event.Text ['l'], ⟨7, 8⟩),
            (Event.End .Link, ⟨5, 10⟩)] := by
  refine ⟨by simp [overlayNext, hmc], rfl, rfl, ?_⟩
  have hW : wikiEvents "[[x]][[l]]".toList 5 10 =
      [(Event.Start (Tag.Link .Inline ['l'] "wiki".toList []), ⟨5, 10⟩),
       (Event.Text ['l'], ⟨7, 8⟩),
       (Event.End .Link, ⟨5, 10⟩)] := by
    rw [wikiEvents,
      runP_ok "[[x]][[l]]".toList _ [(Tok.Other ['l'], ⟨7, 8⟩), (Tok.RRBra, ⟨8, 10⟩)]
        ⟨5, 7⟩ [(Event.Start (Tag.Link .Inline ['l'] "wiki".toList []), ⟨5, 10⟩),
                (Event.Text ['l'], ⟨7, 8⟩),
                (Event.End .Link, ⟨5, 10⟩)] [] (by rfl) (by rfl),
      runP_nil "[[x]][[l]]".toList [] (by rfl)]
    rfl
  simp only [overlayRun, overlayNext, Bool.or_self, Bool.or_true, Bool.true_or,
    Bool.false_eq_true, reduceIte]
  rw [hW]
  rfl

/-- Witness for C5 in the `inside_metadata` state. -/
theorem c5_witness :
    ((true || false) = true) ∧
    (overlayNext [] true false (Event.Text ['['], ⟨0, 1⟩) =
        (some [(Event.Text ['['], ⟨0, 1⟩)], true, false) ∧
     overlayNext [] true false (Event.End (TagEnd.MetadataBlock MetaKind.YamlStyle), ⟨0, 1⟩) =
        (some [(Event.End (TagEnd.MetadataBlock MetaKind.YamlStyle), ⟨0, 1⟩)], false, false) ∧
     overlayNext [] true true (Event.End TagEnd.CodeBlock, ⟨0, 1⟩) =
        (some [(Event.End TagEnd.CodeBlock, ⟨0, 1⟩)], true, false) ∧
     overlayRun "[[x]][[l]]".toList false false
        [(Event.Start (Tag.CodeBlock 0), ⟨0, 5⟩),
         (Event.Text "[[x]]".toList, ⟨0, 5⟩),
         (Event.End TagEnd.CodeBlock, ⟨0, 5⟩),
         (Event.Text "[[l]]".toList, ⟨5, 10⟩)] =
      some [(Event.Start (Tag.CodeBlock 0), ⟨0, 5⟩),
            (Event.Text "[[x]]".toList, ⟨0, 5⟩),
            (Event.End TagEnd.CodeBlock, ⟨0, 5⟩),
            (Event.Start (Tag.Link .Inline ['l'] "wiki".toList []), ⟨5, 10⟩),
            (Event.Text ['l'], ⟨7, 8⟩),
            (Event.End .Link, ⟨5, 10⟩)]) :=
  ⟨by decide, c5_opaque_regions [] true false ['['] ⟨0, 1⟩ ⟨0, 1⟩ MetaKind.YamlStyle (by decide)⟩

/-- Claim C6, counterexample: the claim as stated fails its monotonicity
half.  The overlay of the single valid upstream event
`Text "x[[a]]"` over `[0, 6)` replaces it by the `WikiParser` events
`Text "x" [0,1)`, `Start(Link) [1,6)`, `Text "a" [3,4)`, `End(Link)
[1,6)`: the `End(Link)` event restates the outer range, whose start `1`
is smaller than the preceding inner `Text` start `3`, so the range
start positions are not monotonically non-decreasing. -/
theorem c6_counterexample :
    overlayRun "x[[a]]".toList false false [(Event.Text "x[[a]]".toList, ⟨0, 6⟩)] =
      some [(Event.Text ['x'], ⟨0, 1⟩),
            (Event.Start (Tag.Link .Inline ['a'] "wiki".toList []), ⟨1, 6⟩),
            (Event.Text ['a'], ⟨3, 4⟩),
            (Event.End .Link, ⟨1, 6⟩)] ∧
    startsMono [(Event.Text ['x'], ⟨0, 1⟩),
            (Event.Start (Tag.Link .Inline ['a'] "wiki".toList []), ⟨1, 6⟩),
            (Event.Text ['a'], ⟨3, 4⟩),
            (Event.End .Link, ⟨1, 6⟩)] = false := by
  constructor
  · have hW : wikiEvents "x[[a]]".toList 0 6 =
        [(Event.Text ['x'], ⟨0, 1⟩),
         (Event.Start (Tag.Link .Inline ['a'] "wiki".toList []), ⟨1, 6⟩),
         (Event.Text ['a'], ⟨3, 4⟩),
         (Event.End .Link, ⟨1, 6⟩)] := by
      rw [wikiEvents,
        runP_text "x[[a]]".toList _ [(Tok.LLBra, ⟨1, 3⟩), (Tok.Other ['a'], ⟨3, 4⟩),
          (Tok.RRBra, ⟨4, 6⟩)] (Tok.Other ['x']) ⟨0, 1⟩ (by rfl) (by decide)]
      simp only [parseTextLoop]
      rw [runP_ok "x[[a]]".toList _ [(Tok.Other ['a'], ⟨3, 4⟩), (Tok.RRBra, ⟨4, 6⟩)] ⟨1, 3⟩
        [(Event.Start (Tag.Link .Inline ['a'] "wiki".toList []), ⟨1, 6⟩),
         (Event.Text ['a'], ⟨3, 4⟩), (Event.End .Link, ⟨1, 6⟩)] [] (by rfl) (by rfl),
        runP_nil "x[[a]]".toList [] (by rfl)]
      rfl
    simp only [overlayRun, overlayNext, Bool.or_self, Bool.false_eq_true, reduceIte]
    rw [hW]
    rfl
  · decide

/-- Claim C6, amended: the validity half holds — over any upstream stream
whose own ranges are valid sub-ranges of the source, every event the
overlay emits (from the `Plain` starting state) carries a valid
sub-range of the source — but the monotonicity half does not (see the
counterexample: a splice restating the outer `Link` range after the
inner `Text` range decreases the start position). -/
theorem c6_valid_ranges (src : List Char) (evs out : List EvR)
    (hv : validRangesB src evs = true)
    (hrun : overlayRun src false false evs = some out) :
    validRangesB src out = true :=
  overlayRun_valid src evs false false out hv hrun

/-- Witness for C6 at a pass-through event. -/
theorem c6_witness :
    validRangesB ['a'] [(Event.OtherEv 0, ⟨0, 1⟩)] = true ∧
    overlayRun ['a'] false false [(Event.OtherEv 0, ⟨0, 1⟩)] =
      some [(Event.OtherEv 0, ⟨0, 1⟩)] ∧
    validRangesB ['a'] [(Event.OtherEv 0, ⟨0, 1⟩)] = true :=
  ⟨by decide, by rfl,
   c6_valid_ranges ['a'] [(Event.OtherEv 0, ⟨0, 1⟩)] [(Event.OtherEv 0, ⟨0, 1⟩)]
     (by decide) (by rfl)⟩

/-- Claim C7: constructing the iterator with the wikilink overlay flag
disabled yields exactly the coalesced base stream — the `TextJoiner`
output over the base events, unchanged — and (for a well-formed base
stream, spec §6) that stream contains no empty `Text` event. -/
theorem c7_disabled_overlay_identity (src : List Char) (base : List EvR)
    (h : wfEventsB src base = true) :
    parserOffsetIter src false (textJoiner src base) = some (textJoiner src base) ∧
    ∀ er ∈ textJoiner src base, ∀ x, er.1 = Event.Text x → x ≠ [] :=
  ⟨rfl, textJoiner_no_empty src base h⟩

/-- Witness for C7 over the base stream `Text "a"`, `OtherEv`. -/
theorem c7_witness :
    wfEventsB ['a', 'b'] [(Event.Text ['a'], ⟨0, 1⟩), (Event.OtherEv 0, ⟨1, 2⟩)] = true ∧
    (parserOffsetIter ['a', 'b'] false
        (textJoiner ['a', 'b'] [(Event.Text ['a'], ⟨0, 1⟩), (Event.OtherEv 0, ⟨1, 2⟩)]) =
      some (textJoiner ['a', 'b'] [(Event.Text ['a'], ⟨0, 1⟩), (Event.OtherEv 0, ⟨1, 2⟩)]) ∧
     ∀ er ∈ textJoiner ['a', 'b'] [(Event.Text ['a'], ⟨0, 1⟩), (Event.OtherEv 0, ⟨1, 2⟩)],
       ∀ x, er.1 = Event.Text x → x ≠ []) :=
  ⟨by decide,
   c7_disabled_overlay_identity ['a', 'b']
     [(Event.Text ['a'], ⟨0, 1⟩), (Event.OtherEv 0, ⟨1, 2⟩)] (by decide)⟩

/-- Claim C8: over any well-formed upstream stream (spec §6), the
coalescer implementation equals the spec-side contract — zero-length
`Text` events dropped, every maximal run of consecutive `Text` events
merged into one event spanning first start to last end and re-sliced
from the source, non-text events passed through one at a time — and its
output contains no empty `Text` event and no two consecutive `Text`
events. -/
theorem c8_coalescer_contract (src : List Char) (evs : List EvR)
    (h : wfEventsB src evs = true) :
    textJoiner src evs = coalesceSpec src evs ∧
    (∀ er ∈ textJoiner src evs, ∀ x, er.1 = Event.Text x → x ≠ []) ∧
    noAdjTexts (textJoiner src evs) = true :=
  ⟨textJoiner_eq_coalesceSpec src evs h, textJoiner_no_empty src evs h,
   textJoiner_no_adjacent src evs⟩

/-- Witness for C8 over a stream with an adjacent `Text` pair and a
zero-length `Text` artifact. -/
theorem c8_witness :
    wfEventsB ['a', 'b'] [(Event.Text ['a'], ⟨0, 1⟩), (Event.Text ['b'], ⟨1, 2⟩),
      (Event.Text [], ⟨2, 2⟩)] = true ∧
    (textJoiner ['a', 'b'] [(Event.Text ['a'], ⟨0, 1⟩), (Event.Text ['b'], ⟨1, 2⟩),
        (Event.Text [], ⟨2, 2⟩)] =
      coalesceSpec ['a', 'b'] [(Event.Text ['a'], ⟨0, 1⟩), (Event.Text ['b'], ⟨1, 2⟩),
        (Event.Text [], ⟨2, 2⟩)] ∧
     (∀ er ∈ textJoiner ['a', 'b'] [(Event.Text ['a'], ⟨0, 1⟩), (Event.Text ['b'], ⟨1, 2⟩),
        (Event.Text [], ⟨2, 2⟩)], ∀ x, er.1 = Event.Text x → x ≠ []) ∧
     noAdjTexts (textJoiner ['a', 'b'] [(Event.Text ['a'], ⟨0, 1⟩),
        (Event.Text ['b'], ⟨1, 2⟩), (Event.Text [], ⟨2, 2⟩)]) = true) :=
  ⟨by decide,
   c8_coalescer_contract ['a', 'b'] [(Event.Text ['a'], ⟨0, 1⟩), (Event.Text ['b'], ⟨1, 2⟩),
     (Event.Text [], ⟨2, 2⟩)] (by decide)⟩


end Wikilink
